import Mathlib

/-!
A verification development for the prompter-chrome data layer.

The TypeScript sources embedded here:
* `src/src/App.tsx` — the UI document model: `normalizeDb`, `mergeImported`,
  and the library controller mutators (`upsertPrompt`, `deletePrompt`,
  `duplicatePrompt`, `copyPrompt`, `createCategory`, `renameCategory`,
  `deleteCategory`, `importJson`).
* `src/unnamed/part_001` — the background worker: its own `normalizeDb`
  copy and `savePromptFromPage`.

Modelling conventions:
* JS strings are Lean `String`s; `String.prototype.trim` is modelled by
  `jsTrim` (whitespace = space, tab, CR, LF — the common cases).
* `localeCompare(_, "pl", { sensitivity: "base" })` is modelled, for the
  ASCII range exercised here, as comparison of the lowercased strings;
  the default JS `sort()` comparator (UTF-16 code units) is modelled as
  the code-point order on `String`, which agrees on the Basic
  Multilingual Plane.
* JS `Array.prototype.sort` is stable, so its result is the unique
  stable sort; we use `List.insertionSort`, which is stable for the
  orders used here.
* `new Date().toISOString()` and `crypto.randomUUID()` are
  nondeterministic; they are threaded as explicit parameters
  (`now : String`, and an id supply `ids : Nat → String` consumed by a
  counter in call order).
-/

namespace Prompter

/-- JS whitespace test for the characters relevant to `trim()`. -/
def isWs (c : Char) : Bool := c = ' ' || c = '\t' || c = '\n' || c = '\r'

/-- `trim` on a character list: drop whitespace from the front and the back. -/
def trimL (l : List Char) : List Char :=
  ((l.dropWhile isWs).reverse.dropWhile isWs).reverse

/-- Model of `String.prototype.trim()`. -/
def jsTrim (s : String) : String := ⟨trimL s.data⟩

/-- Model of `String.prototype.toLowerCase()` (basic-latin case folding,
matching `Char.toLower` per character). -/
def jsToLower (s : String) : String := ⟨s.data.map Char.toLower⟩

theorem dropWhile_head_false {p : Char → Bool} :
    ∀ (l : List Char) {a t}, l.dropWhile p = a :: t → p a = false := by
  intro l
  induction l with
  | nil => intro a t h; simp [List.dropWhile] at h
  | cons x xs ih =>
    intro a t h
    by_cases hx : p x
    · rw [List.dropWhile_cons_of_pos hx] at h
      exact ih h
    · rw [List.dropWhile_cons_of_neg hx] at h
      cases h
      simpa using hx

theorem dropWhile_dropWhile (p : Char → Bool) (l : List Char) :
    (l.dropWhile p).dropWhile p = l.dropWhile p := by
  cases h : l.dropWhile p with
  | nil => simp
  | cons a t =>
    have ha := dropWhile_head_false l h
    rw [List.dropWhile_cons_of_neg (by simp [ha])]

theorem dropWhile_suffix (p : Char → Bool) : ∀ l : List Char, l.dropWhile p <:+ l := by
  intro l
  induction l with
  | nil => simp
  | cons x xs ih =>
    by_cases hx : p x
    · rw [List.dropWhile_cons_of_pos hx]
      exact ih.trans (List.suffix_cons x xs)
    · rw [List.dropWhile_cons_of_neg hx]

theorem dropWhile_eq_self_of_dropWhile_eq_self {p : Char → Bool} {A : List Char}
    (hA : A.dropWhile p = A) :
    ((A.reverse.dropWhile p).reverse).dropWhile p = (A.reverse.dropWhile p).reverse := by
  cases hB : (A.reverse.dropWhile p).reverse with
  | nil => simp [hB]
  | cons c t =>
    -- `(A.reverse.dropWhile p).reverse` is a prefix of `A`; its head is `A`'s head,
    -- which fails `p` because `A.dropWhile p = A`.
    have hsfx : A.reverse.dropWhile p <:+ A.reverse := dropWhile_suffix p A.reverse
    have hpre : (A.reverse.dropWhile p).reverse <+: A :=
      List.reverse_suffix.mp (by simpa using hsfx)
    rw [hB] at hpre
    obtain ⟨rest, hrest⟩ := hpre
    have hAc : A = c :: (t ++ rest) := by rw [← hrest]; simp
    have hc : p c = false := by
      cases hcv : p c with
      | false => rfl
      | true =>
        exfalso
        have h1 : A.dropWhile p = (t ++ rest).dropWhile p := by
          rw [hAc, List.dropWhile_cons_of_pos hcv]
        rw [hA] at h1
        have hlen := congrArg List.length h1
        have hle : ((t ++ rest).dropWhile p).length ≤ (t ++ rest).length :=
          List.Sublist.length_le (List.dropWhile_sublist _)
        rw [hAc] at hlen
        simp only [List.length_cons, List.length_append] at hlen hle
        omega
    rw [List.dropWhile_cons_of_neg (by simp [hc])]

theorem trimL_idem (l : List Char) : trimL (trimL l) = trimL l := by
  unfold trimL
  set A := l.dropWhile isWs with hA
  have hAfix : A.dropWhile isWs = A := dropWhile_dropWhile isWs l
  set R := (A.reverse.dropWhile isWs).reverse with hR
  have hfront : R.dropWhile isWs = R := dropWhile_eq_self_of_dropWhile_eq_self hAfix
  have hback : R.reverse.dropWhile isWs = R.reverse := by
    rw [hR]
    simp only [List.reverse_reverse]
    exact dropWhile_dropWhile isWs A.reverse
  rw [hfront, hback]
  simp [hR]

theorem jsTrim_idem (s : String) : jsTrim (jsTrim s) = jsTrim s := by
  unfold jsTrim
  exact congrArg String.mk (trimL_idem s.data)

/-- Lexicographic not-greater on character lists, comparing code points. -/
def lexLeB : List Char → List Char → Bool
  | [], _ => true
  | _ :: _, [] => false
  | a :: as, b :: bs =>
    if a.toNat < b.toNat then true
    else if b.toNat < a.toNat then false
    else lexLeB as bs

theorem lexLeB_total : ∀ x y : List Char, lexLeB x y = true ∨ lexLeB y x = true := by
  intro x
  induction x with
  | nil => intro y; left; rfl
  | cons a as ih =>
    intro y
    cases y with
    | nil => right; rfl
    | cons b bs =>
      by_cases h1 : a.toNat < b.toNat
      · left; simp [lexLeB, h1]
      · by_cases h2 : b.toNat < a.toNat
        · right; simp [lexLeB, h2]
        · rcases ih bs with h | h
          · left; simp [lexLeB, h1, h2, h]
          · right; simp [lexLeB, h1, h2, h]

theorem lexLeB_trans :
    ∀ x y z : List Char, lexLeB x y = true → lexLeB y z = true → lexLeB x z = true := by
  intro x
  induction x with
  | nil => intro y z _ _; rfl
  | cons a as ih =>
    intro y z hxy hyz
    cases y with
    | nil => simp [lexLeB] at hxy
    | cons b bs =>
      cases z with
      | nil => simp [lexLeB] at hyz
      | cons c cs =>
        simp only [lexLeB] at hxy hyz ⊢
        by_cases h1 : a.toNat < b.toNat
        · by_cases h2 : b.toNat < c.toNat
          · rw [if_pos (show a.toNat < c.toNat by omega)]
          · by_cases h4 : c.toNat < b.toNat
            · rw [if_neg h2, if_pos h4] at hyz; exact absurd hyz (by simp)
            · rw [if_pos (show a.toNat < c.toNat by omega)]
        · by_cases h5 : b.toNat < a.toNat
          · rw [if_neg h1, if_pos h5] at hxy; exact absurd hxy (by simp)
          · rw [if_neg h1, if_neg h5] at hxy
            by_cases h2 : b.toNat < c.toNat
            · rw [if_pos (show a.toNat < c.toNat by omega)]
            · by_cases h4 : c.toNat < b.toNat
              · rw [if_neg h2, if_pos h4] at hyz; exact absurd hyz (by simp)
              · rw [if_neg h2, if_neg h4] at hyz
                rw [if_neg (show ¬ a.toNat < c.toNat by omega),
                    if_neg (show ¬ c.toNat < a.toNat by omega)]
                exact ih bs cs hxy hyz

/-- The comparator of `localeCompare(_, "pl", { sensitivity: "base" })`,
modelled (for the ASCII range exercised here) as not-greater on the
lowercased strings. -/
def tagLe (a b : String) : Prop := lexLeB (jsToLower a).data (jsToLower b).data = true

instance : DecidableRel tagLe := fun a b =>
  inferInstanceAs (Decidable (lexLeB (jsToLower a).data (jsToLower b).data = true))

instance : IsTotal String tagLe := ⟨fun a b => lexLeB_total _ _⟩

instance : IsTrans String tagLe := ⟨fun _ _ _ h₁ h₂ => lexLeB_trans _ _ _ h₁ h₂⟩

/-- The default JS `sort()` comparator: code-unit order, modelled as the
code-point order (they agree on the Basic Multilingual Plane). -/
def cuLe (a b : String) : Prop := lexLeB a.data b.data = true

instance : DecidableRel cuLe := fun a b =>
  inferInstanceAs (Decidable (lexLeB a.data b.data = true))

instance : IsTotal String cuLe := ⟨fun a b => lexLeB_total _ _⟩

instance : IsTrans String cuLe := ⟨fun _ _ _ h₁ h₂ => lexLeB_trans _ _ _ h₁ h₂⟩

/-- `new Set(xs)` iteration keeps first occurrences in insertion order. -/
def dedupGo (seen : List String) : List String → List String
  | [] => []
  | x :: xs => if x ∈ seen then dedupGo seen xs else x :: dedupGo (x :: seen) xs

/-- Model of `Array.from(new Set(xs))`. -/
def dedupFirst (l : List String) : List String := dedupGo [] l

theorem mem_dedupGo {seen : List String} {l : List String} {y : String} :
    y ∈ dedupGo seen l ↔ y ∈ l ∧ y ∉ seen := by
  induction l generalizing seen with
  | nil => simp [dedupGo]
  | cons x xs ih =>
    by_cases hx : x ∈ seen
    · rw [dedupGo, if_pos hx, ih]
      simp only [List.mem_cons]
      constructor
      · rintro ⟨hy, hns⟩; exact ⟨Or.inr hy, hns⟩
      · rintro ⟨rfl | hy, hns⟩
        · exact absurd hx hns
        · exact ⟨hy, hns⟩
    · rw [dedupGo, if_neg hx]
      simp only [List.mem_cons, ih]
      constructor
      · rintro (rfl | ⟨hy, hns⟩)
        · exact ⟨Or.inl rfl, hx⟩
        · exact ⟨Or.inr hy, fun hc => hns (Or.inr hc)⟩
      · rintro ⟨rfl | hy, hns⟩
        · exact Or.inl rfl
        · by_cases hyx : y = x
          · exact Or.inl hyx
          · exact Or.inr ⟨hy, fun hc => hc.elim hyx hns⟩

theorem nodup_dedupGo (seen : List String) (l : List String) :
    (dedupGo seen l).Nodup := by
  induction l generalizing seen with
  | nil => simp [dedupGo]
  | cons x xs ih =>
    by_cases hx : x ∈ seen
    · rw [dedupGo, if_pos hx]; exact ih seen
    · rw [dedupGo, if_neg hx]
      refine List.Nodup.cons ?_ (ih (x :: seen))
      intro hc
      exact (mem_dedupGo.mp hc).2 (List.mem_cons_self _ _)

theorem dedupGo_eq_self {seen : List String} {l : List String}
    (hnd : l.Nodup) (hdisj : ∀ x ∈ l, x ∉ seen) : dedupGo seen l = l := by
  induction l generalizing seen with
  | nil => rfl
  | cons x xs ih =>
    have hx : x ∉ seen := hdisj x (List.mem_cons_self _ _)
    rw [dedupGo, if_neg hx]
    congr 1
    refine ih (List.Nodup.of_cons hnd) ?_
    intro y hy hc
    rcases List.mem_cons.mp hc with hc | hc
    · subst hc
      exact (List.nodup_cons.mp hnd).1 hy
    · exact hdisj y (List.mem_cons_of_mem _ hy) hc

theorem mem_dedupFirst {l : List String} {y : String} :
    y ∈ dedupFirst l ↔ y ∈ l := by
  unfold dedupFirst
  rw [mem_dedupGo]
  simp

theorem nodup_dedupFirst (l : List String) : (dedupFirst l).Nodup :=
  nodup_dedupGo [] l

theorem dedupFirst_eq_self {l : List String} (hnd : l.Nodup) : dedupFirst l = l :=
  dedupGo_eq_self hnd (by simp)

/-- The tag pipeline of the UI's `normalizeDb` (src/src/App.tsx lines 132-134):
trim each tag, drop blanks, deduplicate keeping first occurrences, stable-sort
by the Polish base-sensitivity comparator. -/
def normTags (ts : List String) : List String :=
  List.insertionSort tagLe (dedupFirst ((ts.map jsTrim).filter (fun t => t ≠ "")))

/-- The tag pipeline of the background worker's `normalizeDb`
(src/unnamed/part_001 line 66): same, but sorted with the default JS
comparator. -/
def bgNormTags (ts : List String) : List String :=
  List.insertionSort cuLe (dedupFirst ((ts.map jsTrim).filter (fun t => t ≠ "")))

theorem mem_normTags {ts : List String} {t : String} (h : t ∈ normTags ts) :
    jsTrim t = t ∧ t ≠ "" := by
  unfold normTags at h
  rw [List.mem_insertionSort, mem_dedupFirst, List.mem_filter] at h
  obtain ⟨hmap, hne⟩ := h
  obtain ⟨u, _, hu⟩ := List.mem_map.mp hmap
  refine ⟨?_, by simpa using hne⟩
  rw [← hu, jsTrim_idem]

theorem nodup_normTags (ts : List String) : (normTags ts).Nodup :=
  ((List.perm_insertionSort tagLe _).nodup_iff).mpr (nodup_dedupFirst _)

theorem sorted_normTags (ts : List String) : List.Sorted tagLe (normTags ts) :=
  List.sorted_insertionSort tagLe _

theorem map_eq_self_of_mem {l : List String} {f : String → String}
    (h : ∀ x ∈ l, f x = x) : l.map f = l := by
  induction l with
  | nil => rfl
  | cons x xs ih =>
    simp only [List.map_cons]
    rw [h x (List.mem_cons_self _ _), ih (fun y hy => h y (List.mem_cons_of_mem _ hy))]

/-- Re-running the tag pipeline on clean, deduplicated, sorted tags is the
identity. -/
theorem normTags_eq_self {ts : List String}
    (hclean : ∀ t ∈ ts, jsTrim t = t ∧ t ≠ "")
    (hnd : ts.Nodup) (hs : List.Sorted tagLe ts) : normTags ts = ts := by
  unfold normTags
  rw [map_eq_self_of_mem (fun x hx => (hclean x hx).1),
      List.filter_eq_self.mpr (fun a ha => by simpa using (hclean a ha).2),
      dedupFirst_eq_self hnd, List.Sorted.insertionSort_eq hs]

theorem normTags_idem (ts : List String) : normTags (normTags ts) = normTags ts :=
  normTags_eq_self (fun t ht => mem_normTags ht) (nodup_normTags ts) (sorted_normTags ts)

theorem bg_mem_normTags {ts : List String} {t : String} (h : t ∈ bgNormTags ts) :
    jsTrim t = t ∧ t ≠ "" := by
  unfold bgNormTags at h
  rw [List.mem_insertionSort, mem_dedupFirst, List.mem_filter] at h
  obtain ⟨hmap, hne⟩ := h
  obtain ⟨u, _, hu⟩ := List.mem_map.mp hmap
  refine ⟨?_, by simpa using hne⟩
  rw [← hu, jsTrim_idem]

/-! ## Data model (src/src/App.tsx lines 3-25) -/

structure Category where
  id : String
  name : String
  createdAt : String
deriving DecidableEq, Repr

structure Prompt where
  id : String
  title : String
  categoryId : String
  content : String
  tags : List String
  favorite : Bool
  createdAt : String
  updatedAt : String
  lastUsedAt : Option String
deriving DecidableEq, Repr

structure DbFile where
  version : Nat
  categories : List Category
  prompts : List Prompt
deriving DecidableEq, Repr

def UNCATEGORIZED_ID : String := "uncategorized"

/-- The reserved category record pushed by `normalizeDb` / `defaultDb`. -/
def uncatDefault (now : String) : Category :=
  { id := UNCATEGORIZED_ID, name := "Bez kategorii", createdAt := now }

/-- `defaultDb()` (App.tsx lines 94-100). -/
def defaultDb (now : String) : DbFile :=
  { version := 1, categories := [uncatDefault now], prompts := [] }

/-! ## The UI normalizer (src/src/App.tsx lines 102-154)

`nowIso()` is threaded as `now`; `uuid()` as the supply `ids` consumed by a
counter in call order. JS `Map` insertion/update order is modelled by an
append-only list guarded by a key-presence check. -/

/-- One step of the category-deduplication loop (App.tsx lines 109-117);
`if (!id || categoryMap.has(id)) continue` is split into its two
short-circuit cases. -/
def addCat (now : String) (acc : List Category) (c : Category) : List Category :=
  if jsTrim c.id = "" then acc
  else if acc.any (fun k => k.id = jsTrim c.id) then acc
  else acc ++ [{ id := jsTrim c.id
               , name := if jsTrim c.name = "" then "Bez nazwy" else jsTrim c.name
               , createdAt := if c.createdAt = "" then now else c.createdAt }]

/-- The repaired prompt record built at App.tsx lines 136-146 (given the
already-resolved fresh `id`). -/
def normPromptFields (cats : List Category) (now : String) (id : String) (p : Prompt) : Prompt :=
  { id := id
  , title := if jsTrim p.title = "" then "Nowy prompt" else jsTrim p.title
  , categoryId := if cats.any (fun c => c.id = p.categoryId) then p.categoryId
                  else UNCATEGORIZED_ID
  , content := jsTrim p.content
  , tags := normTags p.tags
  , favorite := p.favorite
  , createdAt := if p.createdAt = "" then now else p.createdAt
  , updatedAt := if p.updatedAt ≠ "" then p.updatedAt
                 else if p.createdAt ≠ "" then p.createdAt else now
  , lastUsedAt := match p.lastUsedAt with
      | some s => if s = "" then none else some s
      | none => none }

/-- One step of the prompt-deduplication loop (App.tsx lines 128-147); the
second state component counts `uuid()` calls. `(p.id ?? "").trim() || uuid()`
is split into its two short-circuit cases. -/
def addPrompt (cats : List Category) (now : String) (ids : Nat → String)
    (st : List Prompt × Nat) (p : Prompt) : List Prompt × Nat :=
  if jsTrim p.id = "" then
    if st.1.any (fun q => q.id = ids st.2) then (st.1, st.2 + 1)
    else (st.1 ++ [normPromptFields cats now (ids st.2) p], st.2 + 1)
  else
    if st.1.any (fun q => q.id = jsTrim p.id) then (st.1, st.2)
    else (st.1 ++ [normPromptFields cats now (jsTrim p.id) p], st.2)

/-- Append the reserved category unless some category already carries its id
(App.tsx lines 104-106 and again 119-125). -/
def ensureUncat (now : String) (cats : List Category) : List Category :=
  if cats.any (fun c => c.id = UNCATEGORIZED_ID) then cats
  else cats ++ [uncatDefault now]

/-- The category phase of `normalizeDb` (App.tsx lines 103-125). -/
def normCats (now : String) (cats0 : List Category) : List Category :=
  ensureUncat now ((ensureUncat now cats0).foldl (addCat now) [])

/-- `normalizeDb` of the UI (App.tsx lines 102-154). -/
def normalizeDb (now : String) (ids : Nat → String) (input : DbFile) : DbFile :=
  { version := 1
  , categories := normCats now input.categories
  , prompts :=
      (input.prompts.foldl (addPrompt (normCats now input.categories) now ids) ([], 0)).1 }

/-! ## The background worker's normalizer (src/unnamed/part_001 lines 25-97)

On a well-typed document its `typeof` guards coincide with the UI version in
every field except the tag sort: `[...new Set(...)].sort()` uses the default
JS comparator instead of `localeCompare(_, "pl", { sensitivity: "base" })`. -/

/-- Prompt record built by the background `normalizeDb` (part_001 lines 68-89). -/
def bgNormPromptFields (cats : List Category) (now : String) (id : String) (p : Prompt) : Prompt :=
  { id := id
  , title := if jsTrim p.title = "" then "Nowy prompt" else jsTrim p.title
  , categoryId := if cats.any (fun c => c.id = p.categoryId) then p.categoryId
                  else UNCATEGORIZED_ID
  , content := jsTrim p.content
  , tags := bgNormTags p.tags
  , favorite := p.favorite
  , createdAt := if p.createdAt = "" then now else p.createdAt
  , updatedAt := if p.updatedAt ≠ "" then p.updatedAt
                 else if p.createdAt ≠ "" then p.createdAt else now
  , lastUsedAt := match p.lastUsedAt with
      | some s => if s = "" then none else some s
      | none => none }

/-- One step of the background prompt loop (part_001 lines 61-90). -/
def bgAddPrompt (cats : List Category) (now : String) (ids : Nat → String)
    (st : List Prompt × Nat) (p : Prompt) : List Prompt × Nat :=
  if jsTrim p.id = "" then
    if st.1.any (fun q => q.id = ids st.2) then (st.1, st.2 + 1)
    else (st.1 ++ [bgNormPromptFields cats now (ids st.2) p], st.2 + 1)
  else
    if st.1.any (fun q => q.id = jsTrim p.id) then (st.1, st.2)
    else (st.1 ++ [bgNormPromptFields cats now (jsTrim p.id) p], st.2)

/-- `normalizeDb` of the background worker (part_001 lines 25-97), on a
well-typed document. Its category phase is textually identical to the UI's. -/
def bgNormalizeDb (now : String) (ids : Nat → String) (input : DbFile) : DbFile :=
  { version := 1
  , categories := normCats now input.categories
  , prompts :=
      (input.prompts.foldl (bgAddPrompt (normCats now input.categories) now ids) ([], 0)).1 }

/-! ## Canonical-form predicate

`CleanDb d` collects the structural invariants every `normalizeDb` output
satisfies; on such documents `normalizeDb` is the identity. -/

def CleanCat (c : Category) : Prop :=
  jsTrim c.id = c.id ∧ c.id ≠ "" ∧ jsTrim c.name = c.name ∧ c.name ≠ "" ∧ c.createdAt ≠ ""

instance : DecidablePred CleanCat := fun c => by unfold CleanCat; infer_instance

def CleanTags (ts : List String) : Prop :=
  (∀ t ∈ ts, jsTrim t = t ∧ t ≠ "") ∧ ts.Nodup ∧ List.Sorted tagLe ts

instance : DecidablePred CleanTags := fun ts => by unfold CleanTags; infer_instance

def CleanPrompt (cats : List Category) (p : Prompt) : Prop :=
  jsTrim p.id = p.id ∧ p.id ≠ "" ∧
  jsTrim p.title = p.title ∧ p.title ≠ "" ∧
  jsTrim p.content = p.content ∧
  cats.any (fun c => c.id = p.categoryId) = true ∧
  CleanTags p.tags ∧
  p.createdAt ≠ "" ∧ p.updatedAt ≠ "" ∧ p.lastUsedAt ≠ some ""

instance (cats : List Category) : DecidablePred (CleanPrompt cats) := fun p => by
  unfold CleanPrompt; infer_instance

def CleanDb (d : DbFile) : Prop :=
  d.version = 1 ∧
  (∀ c ∈ d.categories, CleanCat c) ∧
  (d.categories.map Category.id).Nodup ∧
  d.categories.any (fun c => c.id = UNCATEGORIZED_ID) = true ∧
  (∀ p ∈ d.prompts, CleanPrompt d.categories p) ∧
  (d.prompts.map Prompt.id).Nodup

instance : DecidablePred CleanDb := fun d => by unfold CleanDb; infer_instance

/-- The id-supply hypothesis mirroring `crypto.randomUUID()`: outputs are
nonblank and carry no surrounding whitespace. -/
def GoodIds (ids : Nat → String) : Prop := ∀ n, jsTrim (ids n) = ids n ∧ ids n ≠ ""

/-! ## Every `normalizeDb` output is clean -/

theorem uncatDefault_clean {now : String} (hnow : now ≠ "") : CleanCat (uncatDefault now) := by
  refine ⟨?_, ?_, ?_, ?_, hnow⟩
  · show jsTrim UNCATEGORIZED_ID = UNCATEGORIZED_ID
    decide
  · show UNCATEGORIZED_ID ≠ ""
    decide
  · show jsTrim "Bez kategorii" = "Bez kategorii"
    decide
  · show ("Bez kategorii" : String) ≠ ""
    decide

theorem addCat_clean {now : String} (hnow : now ≠ "") {acc : List Category}
    (h1 : ∀ k ∈ acc, CleanCat k) (h2 : (acc.map Category.id).Nodup) (c : Category) :
    (∀ k ∈ addCat now acc c, CleanCat k) ∧ ((addCat now acc c).map Category.id).Nodup := by
  unfold addCat
  by_cases he : jsTrim c.id = ""
  · rw [if_pos he]; exact ⟨h1, h2⟩
  · rw [if_neg he]
    cases hany : acc.any (fun k => k.id = jsTrim c.id) with
    | true => simp only [if_pos]; exact ⟨h1, h2⟩
    | false =>
      rw [if_neg (by simp [hany])]
      have hnotin : jsTrim c.id ∉ acc.map Category.id := by
        intro hmem
        obtain ⟨k, hk, hkid⟩ := List.mem_map.mp hmem
        have hfalse := List.any_eq_false.mp hany k hk
        simp [hkid] at hfalse
      constructor
      · intro k hk
        rcases List.mem_append.mp hk with hk | hk
        · exact h1 k hk
        · rcases List.mem_singleton.mp hk with rfl
          unfold CleanCat
          dsimp only
          refine ⟨jsTrim_idem _, he, ?_, ?_, ?_⟩
          · by_cases hn : jsTrim c.name = ""
            · rw [if_pos hn]; decide
            · rw [if_neg hn]; exact jsTrim_idem _
          · by_cases hn : jsTrim c.name = ""
            · rw [if_pos hn]; decide
            · rw [if_neg hn]; exact hn
          · by_cases hca : c.createdAt = ""
            · rw [if_pos hca]; exact hnow
            · rw [if_neg hca]; exact hca
      · rw [List.map_append]
        rw [List.nodup_append]
        refine ⟨h2, List.nodup_singleton _, ?_⟩
        intro x hx hx'
        rcases List.mem_singleton.mp hx' with rfl
        exact hnotin hx

theorem catFoldl_clean {now : String} (hnow : now ≠ "") :
    ∀ (cs acc : List Category), (∀ k ∈ acc, CleanCat k) → (acc.map Category.id).Nodup →
      (∀ k ∈ cs.foldl (addCat now) acc, CleanCat k) ∧
      ((cs.foldl (addCat now) acc).map Category.id).Nodup := by
  intro cs
  induction cs with
  | nil => intro acc h1 h2; exact ⟨h1, h2⟩
  | cons c rest ih =>
    intro acc h1 h2
    rw [List.foldl_cons]
    obtain ⟨h1', h2'⟩ := addCat_clean hnow h1 h2 c
    exact ih _ h1' h2'

theorem ensureUncat_clean {now : String} (hnow : now ≠ "") {l : List Category}
    (h1 : ∀ k ∈ l, CleanCat k) (h2 : (l.map Category.id).Nodup) :
    (∀ k ∈ ensureUncat now l, CleanCat k) ∧
    ((ensureUncat now l).map Category.id).Nodup ∧
    (ensureUncat now l).any (fun c => c.id = UNCATEGORIZED_ID) = true := by
  unfold ensureUncat
  cases hany : l.any (fun c => c.id = UNCATEGORIZED_ID) with
  | true => simp only [if_pos]; exact ⟨h1, h2, hany⟩
  | false =>
    rw [if_neg (by simp [hany])]
    refine ⟨?_, ?_, ?_⟩
    · intro k hk
      rcases List.mem_append.mp hk with hk | hk
      · exact h1 k hk
      · rcases List.mem_singleton.mp hk with rfl
        exact uncatDefault_clean hnow
    · rw [List.map_append, List.nodup_append]
      refine ⟨h2, List.nodup_singleton _, ?_⟩
      intro x hx hx'
      rcases List.mem_singleton.mp hx' with rfl
      obtain ⟨k, hk, hkid⟩ := List.mem_map.mp hx
      have hfalse := List.any_eq_false.mp hany k hk
      have hud : (uncatDefault now).id = UNCATEGORIZED_ID := rfl
      rw [hud] at hkid
      simp [hkid] at hfalse
    · rw [List.any_append]
      have hud : (uncatDefault now).id = UNCATEGORIZED_ID := rfl
      simp [hud]

theorem normCats_clean {now : String} (hnow : now ≠ "") (cats0 : List Category) :
    (∀ k ∈ normCats now cats0, CleanCat k) ∧
    ((normCats now cats0).map Category.id).Nodup ∧
    (normCats now cats0).any (fun c => c.id = UNCATEGORIZED_ID) = true := by
  unfold normCats
  obtain ⟨h1, h2⟩ :=
    catFoldl_clean hnow (ensureUncat now cats0) [] (by simp) (by simp)
  exact ensureUncat_clean hnow h1 h2

theorem normPromptFields_clean {cats : List Category} {now : String}
    (hnow : now ≠ "")
    (hUNC : cats.any (fun c => c.id = UNCATEGORIZED_ID) = true)
    {id : String} (hid : jsTrim id = id) (hidne : id ≠ "") (p : Prompt) :
    CleanPrompt cats (normPromptFields cats now id p) := by
  have htags : CleanTags (normTags p.tags) :=
    ⟨fun t ht => mem_normTags ht, nodup_normTags _, sorted_normTags _⟩
  unfold normPromptFields CleanPrompt
  dsimp only
  refine ⟨hid, hidne, ?_, ?_, jsTrim_idem _, ?_, htags, ?_, ?_, ?_⟩
  · by_cases ht : jsTrim p.title = ""
    · rw [if_pos ht]; decide
    · rw [if_neg ht]; exact jsTrim_idem _
  · by_cases ht : jsTrim p.title = ""
    · rw [if_pos ht]; decide
    · rw [if_neg ht]; exact ht
  · cases hc : cats.any (fun c => c.id = p.categoryId) with
    | true => simpa using hc
    | false => simpa using hUNC
  · by_cases hca : p.createdAt = ""
    · rw [if_pos hca]; exact hnow
    · rw [if_neg hca]; exact hca
  · by_cases hup : p.updatedAt ≠ ""
    · rw [if_pos hup]; exact hup
    · rw [if_neg hup]
      by_cases hca : p.createdAt ≠ ""
      · rw [if_pos hca]; exact hca
      · rw [if_neg hca]; exact hnow
  · cases hl : p.lastUsedAt with
    | none => simp
    | some s =>
      dsimp only
      by_cases hs : s = ""
      · rw [if_pos hs]; simp
      · rw [if_neg hs]; simp [hs]

theorem addPrompt_clean {cats : List Category} {now : String} {ids : Nat → String}
    (hnow : now ≠ "") (hids : GoodIds ids)
    (hUNC : cats.any (fun c => c.id = UNCATEGORIZED_ID) = true)
    {st : List Prompt × Nat}
    (h1 : ∀ q ∈ st.1, CleanPrompt cats q) (h2 : (st.1.map Prompt.id).Nodup) (p : Prompt) :
    (∀ q ∈ (addPrompt cats now ids st p).1, CleanPrompt cats q) ∧
    ((addPrompt cats now ids st p).1.map Prompt.id).Nodup := by
  unfold addPrompt
  have step :
      ∀ (pid : String), jsTrim pid = pid → pid ≠ "" →
        st.1.any (fun q => q.id = pid) = false →
        (∀ q ∈ st.1 ++ [normPromptFields cats now pid p], CleanPrompt cats q) ∧
        ((st.1 ++ [normPromptFields cats now pid p]).map Prompt.id).Nodup := by
    intro pid hid hidne hany
    constructor
    · intro q hq
      rcases List.mem_append.mp hq with hq | hq
      · exact h1 q hq
      · rcases List.mem_singleton.mp hq with rfl
        exact normPromptFields_clean hnow hUNC hid hidne p
    · rw [List.map_append, List.nodup_append]
      refine ⟨h2, List.nodup_singleton _, ?_⟩
      intro x hx hx'
      have hxeq : x = pid := by simpa [normPromptFields] using hx'
      subst hxeq
      obtain ⟨q, hq, hqid⟩ := List.mem_map.mp hx
      have hfalse := List.any_eq_false.mp hany q hq
      simp [hqid] at hfalse
  by_cases he : jsTrim p.id = ""
  · rw [if_pos he]
    cases hany : st.1.any (fun q => q.id = ids st.2) with
    | true => simp only [if_pos]; exact ⟨h1, h2⟩
    | false =>
      rw [if_neg (by simp [hany])]
      exact step (ids st.2) (hids st.2).1 (hids st.2).2 hany
  · rw [if_neg he]
    cases hany : st.1.any (fun q => q.id = jsTrim p.id) with
    | true => simp only [if_pos]; exact ⟨h1, h2⟩
    | false =>
      rw [if_neg (by simp [hany])]
      exact step (jsTrim p.id) (jsTrim_idem _) he hany

theorem promptFoldl_clean {cats : List Category} {now : String} {ids : Nat → String}
    (hnow : now ≠ "") (hids : GoodIds ids)
    (hUNC : cats.any (fun c => c.id = UNCATEGORIZED_ID) = true) :
    ∀ (ps : List Prompt) (st : List Prompt × Nat),
      (∀ q ∈ st.1, CleanPrompt cats q) → (st.1.map Prompt.id).Nodup →
      (∀ q ∈ (ps.foldl (addPrompt cats now ids) st).1, CleanPrompt cats q) ∧
      ((ps.foldl (addPrompt cats now ids) st).1.map Prompt.id).Nodup := by
  intro ps
  induction ps with
  | nil => intro st h1 h2; exact ⟨h1, h2⟩
  | cons p rest ih =>
    intro st h1 h2
    rw [List.foldl_cons]
    obtain ⟨h1', h2'⟩ := addPrompt_clean hnow hids hUNC h1 h2 p
    exact ih _ h1' h2'

/-- Lemma A: every output of the UI `normalizeDb` is canonical. -/
theorem cleanDb_normalizeDb {now : String} {ids : Nat → String}
    (hnow : now ≠ "") (hids : GoodIds ids) (D : DbFile) :
    CleanDb (normalizeDb now ids D) := by
  obtain ⟨hc1, hc2, hc3⟩ := normCats_clean hnow D.categories
  obtain ⟨hp1, hp2⟩ :=
    promptFoldl_clean hnow hids hc3 D.prompts ([], 0) (by simp) (by simp)
  exact ⟨rfl, hc1, hc2, hc3, hp1, hp2⟩

/-! ## `normalizeDb` is the identity on clean documents -/

theorem addCat_id {now : String} {acc : List Category} (c : Category)
    (hc : CleanCat c) (hnotin : c.id ∉ acc.map Category.id) :
    addCat now acc c = acc ++ [c] := by
  obtain ⟨hid, hne, hname, hnane, hca⟩ := hc
  unfold addCat
  rw [hid, if_neg hne]
  have hany : acc.any (fun k => k.id = c.id) = false := by
    rw [List.any_eq_false]
    intro k hk
    simp only [decide_eq_true_eq]
    intro heq
    exact hnotin (List.mem_map.mpr ⟨k, hk, heq⟩)
  rw [if_neg (by simp [hany])]
  have hrec : ({ id := c.id
               , name := if jsTrim c.name = "" then "Bez nazwy" else jsTrim c.name
               , createdAt := if c.createdAt = "" then now else c.createdAt } : Category) = c := by
    rw [hname, if_neg hnane, if_neg hca]
  rw [hrec]

theorem catFoldl_id {now : String} :
    ∀ (cs acc : List Category), (∀ k ∈ cs, CleanCat k) →
      ((acc ++ cs).map Category.id).Nodup →
      cs.foldl (addCat now) acc = acc ++ cs := by
  intro cs
  induction cs with
  | nil => intro acc _ _; simp
  | cons c rest ih =>
    intro acc hcl hnd
    rw [List.foldl_cons]
    have hnotin : c.id ∉ acc.map Category.id := by
      intro hmem
      rw [List.map_append, List.nodup_append] at hnd
      exact hnd.2.2 hmem (by simp)
    rw [addCat_id c (hcl c (List.mem_cons_self _ _)) hnotin]
    have hnd' : (((acc ++ [c]) ++ rest).map Category.id).Nodup := by
      simpa [List.append_assoc] using hnd
    rw [ih (acc ++ [c]) (fun k hk => hcl k (List.mem_cons_of_mem _ hk)) hnd']
    simp

theorem ensureUncat_eq_self {now : String} {l : List Category}
    (h : l.any (fun c => c.id = UNCATEGORIZED_ID) = true) : ensureUncat now l = l := by
  unfold ensureUncat
  rw [if_pos h]

theorem normCats_eq_self {now : String} {l : List Category}
    (hcl : ∀ k ∈ l, CleanCat k) (hnd : (l.map Category.id).Nodup)
    (hany : l.any (fun c => c.id = UNCATEGORIZED_ID) = true) :
    normCats now l = l := by
  unfold normCats
  rw [ensureUncat_eq_self hany]
  have hfold : l.foldl (addCat now) [] = l := by
    have := @catFoldl_id now l [] hcl (by simpa using hnd)
    simpa using this
  rw [hfold, ensureUncat_eq_self hany]

theorem normPromptFields_eq_self {cats : List Category} {now : String} {p : Prompt}
    (hp : CleanPrompt cats p) : normPromptFields cats now p.id p = p := by
  obtain ⟨hid, hidne, hti, htine, hco, hcat, htags, hca, hup, hlu⟩ := hp
  have hlu' : (match p.lastUsedAt with
               | some s => if s = "" then none else some s
               | none => none) = p.lastUsedAt := by
    cases hl : p.lastUsedAt with
    | none => rfl
    | some s =>
      have hs : s ≠ "" := by
        intro hcontra
        subst hcontra
        rw [hl] at hlu
        exact hlu rfl
      dsimp only
      rw [if_neg hs]
  unfold normPromptFields
  rw [hti, if_neg htine, hco, if_pos hcat,
      normTags_eq_self htags.1 htags.2.1 htags.2.2, if_neg hca, if_pos hup, hlu']

theorem addPrompt_id {cats : List Category} {now : String} {ids : Nat → String}
    {st : List Prompt × Nat} (p : Prompt)
    (hp : CleanPrompt cats p) (hnotin : p.id ∉ st.1.map Prompt.id) :
    addPrompt cats now ids st p = (st.1 ++ [p], st.2) := by
  unfold addPrompt
  rw [hp.1, if_neg hp.2.1]
  have hany : st.1.any (fun q => q.id = p.id) = false := by
    rw [List.any_eq_false]
    intro q hq
    simp only [decide_eq_true_eq]
    intro heq
    exact hnotin (List.mem_map.mpr ⟨q, hq, heq⟩)
  rw [if_neg (by simp [hany])]
  rw [normPromptFields_eq_self hp]

theorem promptFoldl_id {cats : List Category} {now : String} {ids : Nat → String} :
    ∀ (ps : List Prompt) (st : List Prompt × Nat), (∀ q ∈ ps, CleanPrompt cats q) →
      ((st.1 ++ ps).map Prompt.id).Nodup →
      ps.foldl (addPrompt cats now ids) st = (st.1 ++ ps, st.2) := by
  intro ps
  induction ps with
  | nil => intro st _ _; simp
  | cons p rest ih =>
    intro st hcl hnd
    rw [List.foldl_cons]
    have hnotin : p.id ∉ st.1.map Prompt.id := by
      intro hmem
      rw [List.map_append, List.nodup_append] at hnd
      exact hnd.2.2 hmem (by simp)
    rw [addPrompt_id p (hcl p (List.mem_cons_self _ _)) hnotin]
    have hnd' : (((st.1 ++ [p]) ++ rest).map Prompt.id).Nodup := by
      simpa [List.append_assoc] using hnd
    have := ih (st.1 ++ [p], st.2) (fun q hq => hcl q (List.mem_cons_of_mem _ hq)) hnd'
    rw [this]
    simp

/-- Lemma B: on a canonical document the UI `normalizeDb` is the identity,
whatever clock value and id supply the second run sees. -/
theorem normalizeDb_eq_self {now : String} {ids : Nat → String} {E : DbFile}
    (h : CleanDb E) : normalizeDb now ids E = E := by
  obtain ⟨hv, hcl, hcnd, hunc, hpl, hpnd⟩ := h
  have hcats : normCats now E.categories = E.categories := normCats_eq_self hcl hcnd hunc
  unfold normalizeDb
  rw [hcats]
  have hps := @promptFoldl_id E.categories now ids
    E.prompts ([], 0) hpl (by simpa using hpnd)
  rw [hps]
  cases E with
  | mk v cs ps => simp_all

/-! ## The library controller (App.tsx lines 291-570)

React state updates are modelled as a sequential state machine: `setX` calls
apply immediately, in program order. A mutator throw inside `commit`'s
updater is caught by `withValidation`, so its net effect is
`error := some message` with everything else untouched (`commit`'s initial
`setError(null)` is overwritten by the catch handler's `setError(message)`).
The clipboard sink of `copyPrompt` is a boolean parameter; `uuid()` calls
made by a mutator itself are the `freshId`/`copyId` parameters. -/

structure LibState where
  db : DbFile
  error : Option String
  toast : Option String
  backupPending : Bool
deriving DecidableEq, Repr

structure PromptDraft where
  id : Option String
  title : String
  categoryId : String
  content : String
  tags : List String
  favorite : Bool
deriving DecidableEq, Repr

/-- The success path of `commit` (App.tsx lines 328-333). -/
def commitOk (now : String) (ids : Nat → String) (newDb : DbFile) (toast : String)
    (st : LibState) : LibState :=
  { st with
    error := none, db := normalizeDb now ids newDb,
    backupPending := true, toast := some toast }

/-- Net effect of a validation throw caught by `withValidation`
(App.tsx lines 335-342). -/
def failWith (msg : String) (st : LibState) : LibState := { st with error := some msg }

/-- `upsertPrompt` (App.tsx lines 377-434). Its three blank-field checks run
before `withValidation`, so they propagate to the caller: the model returns
`Except.error` there. -/
def upsertPrompt (now : String) (ids : Nat → String) (freshId : String)
    (draft : PromptDraft) (st : LibState) : Except String (LibState × String) :=
  if jsTrim draft.title = "" then .error "Pole title jest wymagane"
  else if jsTrim draft.categoryId = "" then .error "Pole categoryId jest wymagane"
  else if jsTrim draft.content = "" then .error "Pole content jest wymagane"
  else
    let promptId := match draft.id with
      | some s => if s = "" then freshId else s
      | none => freshId
    let categoryId := if st.db.categories.any (fun c => c.id = draft.categoryId)
                      then draft.categoryId else UNCATEGORIZED_ID
    let tags := normTags draft.tags
    let newPrompts :=
      if st.db.prompts.any (fun p => p.id = promptId) then
        st.db.prompts.map (fun p =>
          if p.id = promptId then
            { p with
              title := jsTrim draft.title, categoryId := categoryId,
              content := jsTrim draft.content, tags := tags,
              favorite := draft.favorite, updatedAt := now }
          else p)
      else
        st.db.prompts ++ [{ id := promptId, title := jsTrim draft.title
                          , categoryId := categoryId, content := jsTrim draft.content
                          , tags := tags, favorite := draft.favorite
                          , createdAt := now, updatedAt := now, lastUsedAt := none }]
    .ok (commitOk now ids { st.db with prompts := newPrompts } "Zapisano" st, promptId)

/-- `deletePrompt` (App.tsx lines 435-445). -/
def deletePrompt (now : String) (ids : Nat → String) (i : String) (st : LibState) : LibState :=
  commitOk now ids { st.db with prompts := st.db.prompts.filter (fun p => p.id ≠ i) }
    "Usunięto prompt" st

/-- `duplicatePrompt` (App.tsx lines 446-472); `copyId` is its own `uuid()`
draw and is returned even when the source prompt is missing. -/
def duplicatePrompt (now : String) (ids : Nat → String) (copyId : String)
    (i : String) (st : LibState) : LibState × String :=
  match st.db.prompts.find? (fun p => p.id = i) with
  | none => (failWith "Prompt nie istnieje" st, copyId)
  | some original =>
      (commitOk now ids
        { st.db with prompts := st.db.prompts ++
            [{ original with
               id := copyId, title := original.title ++ " (kopia)",
               createdAt := now, updatedAt := now, lastUsedAt := none }] }
        "Zduplikowano" st, copyId)

/-- `copyPrompt` (App.tsx lines 473-499); `sinkOk` is whether
`navigator.clipboard.writeText` succeeds. -/
def copyPrompt (now : String) (ids : Nat → String) (sinkOk : Bool)
    (i : String) (st : LibState) : LibState :=
  match st.db.prompts.find? (fun p => p.id = i) with
  | none => failWith "Prompt nie istnieje" st
  | some _ =>
      if sinkOk then
        commitOk now ids
          { st.db with prompts := st.db.prompts.map (fun p =>
              if p.id = i then { p with lastUsedAt := some now, updatedAt := now } else p) }
          "Skopiowano" st
      else failWith "Nie udało się skopiować do schowka" st

/-- `createCategory` (App.tsx lines 500-516). -/
def createCategory (now : String) (ids : Nat → String) (freshId : String)
    (name : String) (st : LibState) : LibState :=
  if jsTrim name = "" then failWith "Nazwa kategorii jest wymagana" st
  else if st.db.categories.any (fun c => jsToLower c.name = jsToLower (jsTrim name)) then
    failWith "Kategoria o tej nazwie już istnieje" st
  else
    commitOk now ids
      { st.db with categories := st.db.categories ++
          [{ id := freshId, name := jsTrim name, createdAt := now }] }
      "Dodano kategorię" st

/-- `renameCategory` (App.tsx lines 517-539). -/
def renameCategory (now : String) (ids : Nat → String) (i name : String)
    (st : LibState) : LibState :=
  if jsTrim name = "" then failWith "Nazwa kategorii jest wymagana" st
  else if i = UNCATEGORIZED_ID then
    failWith "Nie można zmienić nazwy kategorii Bez kategorii" st
  else if st.db.categories.any (fun c => c.id ≠ i ∧ jsToLower c.name = jsToLower (jsTrim name)) then
    failWith "Kategoria o tej nazwie już istnieje" st
  else if st.db.categories.any (fun c => c.id = i) = false then
    failWith "Kategoria nie istnieje" st
  else
    commitOk now ids
      { st.db with categories := st.db.categories.map (fun c =>
          if c.id = i then { c with name := jsTrim name } else c) }
      "Zmieniono nazwę kategorii" st

/-- `deleteCategory` (App.tsx lines 541-560). -/
def deleteCategory (now : String) (ids : Nat → String) (i : String)
    (st : LibState) : LibState :=
  if i = UNCATEGORIZED_ID then failWith "Nie można usunąć kategorii Bez kategorii" st
  else if st.db.categories.any (fun c => c.id = i) = false then
    failWith "Kategoria nie istnieje" st
  else
    commitOk now ids
      { st.db with
        categories := st.db.categories.filter (fun c => c.id ≠ i)
      , prompts := st.db.prompts.map (fun p =>
          if p.categoryId = i then { p with categoryId := UNCATEGORIZED_ID, updatedAt := now }
          else p) }
      "Usunięto kategorię" st

/-! ## The merge engine (App.tsx lines 156-203)

JS `Map`s are association lists: `aset` updates in place (a `Map.set` on an
existing key keeps its insertion position), `aget` looks a key up, and a
`Map` built from a pair list folds `aset` over it (later pairs win). -/

def aget {α : Type} (m : List (String × α)) (k : String) : Option α :=
  (m.find? (fun kv => kv.1 = k)).map (fun kv => kv.2)

def aset {α : Type} (m : List (String × α)) (k : String) (v : α) : List (String × α) :=
  if m.any (fun kv => kv.1 = k) then m.map (fun kv => if kv.1 = k then (k, v) else kv)
  else m ++ [(k, v)]

def mapFromPairs {α : Type} (l : List (String × α)) : List (String × α) :=
  l.foldl (fun m kv => aset m kv.1 kv.2) []

structure MergeCatState where
  cats : List Category
  idMap : List (String × String)
  nameMap : List (String × String)
  counter : Nat
deriving Repr

/-- One step of the imported-category loop (App.tsx lines 166-183);
`existingByName` is truthy only when the name lookup hits a nonempty id. -/
def mergeCatStep (mids : Nat → String) (s : MergeCatState) (c : Category) : MergeCatState :=
  let importedId := if c.id = "" then mids s.counter else c.id
  let k' := if c.id = "" then s.counter + 1 else s.counter
  if s.idMap.any (fun kv => kv.1 = importedId) then
    { s with idMap := aset s.idMap importedId importedId, counter := k' }
  else if (aget s.nameMap (jsToLower c.name)).getD "" ≠ "" then
    { s with
      idMap := aset s.idMap importedId ((aget s.nameMap (jsToLower c.name)).getD ""),
      counter := k' }
  else
    { cats := s.cats ++ [c]
    , idMap := aset s.idMap importedId importedId
    , nameMap := aset s.nameMap (jsToLower c.name) importedId
    , counter := k' }

/-- The category phase of `mergeImported` (App.tsx lines 163-185), ending
with the reserved-id override. -/
def mergeCats (mids : Nat → String) (current imported : List Category) : MergeCatState :=
  let s1 := imported.foldl (mergeCatStep mids)
    { cats := current
    , idMap := mapFromPairs (current.map (fun c => (c.id, c.id)))
    , nameMap := mapFromPairs (current.map (fun c => (jsToLower c.name, c.id)))
    , counter := 0 }
  { s1 with idMap := aset s1.idMap UNCATEGORIZED_ID UNCATEGORIZED_ID }

/-- The incoming-prompt rewrite of App.tsx lines 189-196 (with its id already
resolved). -/
def mergePromptRewrite (idMap : List (String × String)) (pid : String) (p : Prompt) : Prompt :=
  { p with
    id := pid,
    categoryId := (aget idMap p.categoryId).getD UNCATEGORIZED_ID,
    tags := normTags p.tags }

/-- One step of the incoming-prompt upsert loop (App.tsx lines 188-199). -/
def mergePromptStep (idMap : List (String × String)) (mids : Nat → String)
    (s : List (String × Prompt) × Nat) (p : Prompt) : List (String × Prompt) × Nat :=
  let pid := if p.id = "" then mids s.2 else p.id
  let k' := if p.id = "" then s.2 + 1 else s.2
  (aset s.1 pid (mergePromptRewrite idMap pid p), k')

/-- `mergeImported` (App.tsx lines 156-203). `mids` supplies the merge's own
`uuid()` draws (categories first, then prompts); the final pass re-enters the
UI `normalizeDb` with `now`/`ids`. -/
def mergeImported (now : String) (ids mids : Nat → String)
    (current imported : DbFile) : DbFile :=
  let cstate := mergeCats mids current.categories imported.categories
  let seeded := mapFromPairs (current.prompts.map (fun p => (p.id, p)))
  let final := imported.prompts.foldl (mergePromptStep cstate.idMap mids)
    (seeded, cstate.counter)
  normalizeDb now ids
    { version := 1, categories := cstate.cats, prompts := final.1.map (fun kv => kv.2) }

/-- `importJson` after a successful parse (App.tsx lines 562-568): the parsed
document is normalized, merged with the current one, and committed. -/
def importDoc (now : String) (ids mids : Nat → String) (incoming : DbFile)
    (st : LibState) : LibState :=
  commitOk now ids (mergeImported now ids mids st.db (normalizeDb now ids incoming))
    "Zaimportowano dane" st

/-! ## The background save path (src/unnamed/part_001 lines 125-157) -/

/-- Model of JS `s.split(",")` over the character list. -/
def splitCommaL : List Char → List (List Char)
  | [] => [[]]
  | c :: rest =>
    if c = ',' then [] :: splitCommaL rest
    else match splitCommaL rest with
      | [] => [[c]]
      | g :: gs => (c :: g) :: gs

def jsSplitComma (s : String) : List String := (splitCommaL s.data).map String.mk

structure PagePayload where
  title : String
  content : String
  tagsRaw : String
deriving DecidableEq, Repr

/-- `savePromptFromPage` (part_001 lines 125-157): validates title/content,
splits `tags` on commas, trims, dedupes, sorts with the default comparator,
appends the prompt to the stored document and re-normalizes with the
background worker's `normalizeDb`. -/
def savePromptFromPage (now : String) (ids : Nat → String) (freshId : String)
    (db : DbFile) (payload : PagePayload) : Except String DbFile :=
  if jsTrim payload.title = "" then .error "Tytul jest wymagany"
  else if jsTrim payload.content = "" then .error "Tresc promptu jest wymagana"
  else
    .ok (bgNormalizeDb now ids
      { db with prompts := db.prompts ++
          [{ id := freshId, title := jsTrim payload.title
           , categoryId := UNCATEGORIZED_ID
           , content := jsTrim payload.content
           , tags := List.insertionSort cuLe (dedupFirst
               (((jsSplitComma payload.tagsRaw).map jsTrim).filter (fun t => t ≠ "")))
           , favorite := false, createdAt := now, updatedAt := now
           , lastUsedAt := none }] })

/-! ## A raw-value model of the trust boundary

The UI `normalizeDb` receives `JSON.parse` output, not a typed document.
`JVal` models such a value (`undef` being the result of a missed property
lookup); `rawNormalizeDb` replays App.tsx lines 102-154 over raw values
under JS evaluation rules, returning `Except.error` where the JS would
throw a `TypeError`. -/

inductive JVal where
  | null
  | undef
  | bool (b : Bool)
  | num (n : Int)
  | str (s : String)
  | arr (xs : List JVal)
  | obj (fields : List (String × JVal))

/-- JS property access `v[k]`: throws on `null`/`undefined`, yields
`undefined` on other non-objects and on a missing key. -/
def jget (v : JVal) (k : String) : Except String JVal :=
  match v with
  | .null => .error "TypeError"
  | .undef => .error "TypeError"
  | .obj fs => .ok (((fs.find? (fun kv => kv.1 = k)).map (fun kv => kv.2)).getD .undef)
  | _ => .ok .undef

def jnullish : JVal → Bool
  | .null => true
  | .undef => true
  | _ => false

/-- JS `a ?? b`. -/
def jcoalesce (a b : JVal) : JVal := if jnullish a then b else a

/-- JS truthiness. -/
def jtruthy : JVal → Bool
  | .null => false
  | .undef => false
  | .bool b => b
  | .num n => n ≠ 0
  | .str s => s ≠ ""
  | .arr _ => true
  | .obj _ => true

/-- JS `v.trim()`: only strings have a callable `trim`. -/
def jtrim : JVal → Except String String
  | .str s => .ok (jsTrim s)
  | _ => .error "TypeError"

/-- JS iteration (`[...v]`, `for (const x of v)`): arrays iterate elements,
strings iterate characters, everything else throws. -/
def jiter : JVal → Except String (List JVal)
  | .arr xs => .ok xs
  | .str s => .ok (s.data.map (fun c => JVal.str (String.mk [c])))
  | _ => .error "TypeError"

/-- JS `v === s` against a string literal. -/
def jstrEq (v : JVal) (s : String) : Bool :=
  match v with
  | .str t => t = s
  | _ => false

/-- `categories.some((c) => c.id === UNCATEGORIZED_ID)` (App.tsx line 104). -/
def jsomeIdUnc : List JVal → Except String Bool
  | [] => .ok false
  | c :: rest =>
    match jget c "id" with
    | .error e => .error e
    | .ok idv => if jstrEq idv UNCATEGORIZED_ID then .ok true else jsomeIdUnc rest

def jUncatDefault (now : String) : JVal :=
  .obj [("id", .str UNCATEGORIZED_ID), ("name", .str "Bez kategorii"), ("createdAt", .str now)]

/-- `c.name?.trim()`-style access: nullish propagates as `undefined`, any
other non-string throws at the `trim` call. -/
def joptTrim (v : JVal) : Except String JVal :=
  match v with
  | .null => .ok .undef
  | .undef => .ok .undef
  | v => (jtrim v).map JVal.str

/-- One step of the raw category loop (App.tsx lines 109-117), accumulating
the `categoryMap` entries in insertion order. -/
def rawCatStep (now : String) (acc : List (String × JVal)) (c : JVal) :
    Except String (List (String × JVal)) := do
  let idv ← jget c "id"
  let id ← jtrim (jcoalesce idv (.str ""))
  if id = "" then pure acc
  else if acc.any (fun kv => kv.1 = id) then pure acc
  else do
    let nameOut ← joptTrim (← jget c "name")
    let cav ← jget c "createdAt"
    pure (acc ++ [(id, JVal.obj
      [ ("id", .str id)
      , ("name", if jtruthy nameOut then nameOut else .str "Bez nazwy")
      , ("createdAt", if jtruthy cav then cav else .str now)])])

/-- `(p.tags ?? []).map(t => t.trim()).filter(Boolean)` then dedupe and sort
(App.tsx lines 132-134); `.map` exists only on arrays here. -/
def rawTags (tv : JVal) : Except String (List String) :=
  match jcoalesce tv (.arr []) with
  | .arr xs => (xs.mapM jtrim).map (fun ts =>
      List.insertionSort tagLe (dedupFirst (ts.filter (fun t => t ≠ ""))))
  | _ => .error "TypeError"

/-- One step of the raw prompt loop (App.tsx lines 128-147). -/
def rawPromptStep (cats : List (String × JVal)) (now : String) (ids : Nat → String)
    (st : List (String × JVal) × Nat) (p : JVal) :
    Except String (List (String × JVal) × Nat) := do
  let idv ← jget p "id"
  let idt ← jtrim (jcoalesce idv (.str ""))
  let id := if idt = "" then ids st.2 else idt
  let k' := if idt = "" then st.2 + 1 else st.2
  if st.1.any (fun kv => kv.1 = id) then pure (st.1, k')
  else do
    let tags ← rawTags (← jget p "tags")
    let titleOut ← joptTrim (← jget p "title")
    let cidv ← jget p "categoryId"
    let cid : JVal := match cidv with
      | .str s => if cats.any (fun kv => kv.1 = s) then .str s else .str UNCATEGORIZED_ID
      | _ => .str UNCATEGORIZED_ID
    let contentOut ← joptTrim (← jget p "content")
    let favv ← jget p "favorite"
    let cav ← jget p "createdAt"
    let upv ← jget p "updatedAt"
    let luv ← jget p "lastUsedAt"
    pure (st.1 ++ [(id, JVal.obj
      [ ("id", .str id)
      , ("title", if jtruthy titleOut then titleOut else .str "Nowy prompt")
      , ("categoryId", cid)
      , ("content", if jtruthy contentOut then contentOut else .str "")
      , ("tags", .arr (tags.map JVal.str))
      , ("favorite", .bool (jtruthy favv))
      , ("createdAt", if jtruthy cav then cav else .str now)
      , ("updatedAt", if jtruthy upv then upv else if jtruthy cav then cav else .str now)
      , ("lastUsedAt", if jtruthy luv then luv else .null)])], k')

/-- The UI `normalizeDb` (App.tsx lines 102-154) over raw values. -/
def rawNormalizeDb (now : String) (ids : Nat → String) (input : JVal) :
    Except String JVal := do
  let catsv ← jget input "categories"
  let cats0 ← jiter (jcoalesce catsv (.arr []))
  let hasUnc ← jsomeIdUnc cats0
  let cats1 := if hasUnc then cats0 else cats0 ++ [jUncatDefault now]
  let catPairs ← cats1.foldlM (rawCatStep now) []
  let catPairs2 := if catPairs.any (fun kv => kv.1 = UNCATEGORIZED_ID) then catPairs
                   else catPairs ++ [(UNCATEGORIZED_ID, jUncatDefault now)]
  let promptsv ← jget input "prompts"
  let ps ← jiter (jcoalesce promptsv (.arr []))
  let final ← ps.foldlM (rawPromptStep catPairs2 now ids) ([], 0)
  pure (JVal.obj
    [ ("version", .num 1)
    , ("categories", .arr (catPairs2.map (fun kv => kv.2)))
    , ("prompts", .arr (final.1.map (fun kv => kv.2)))])

/-! ### The well-typed fragment, on which the raw normalizer cannot throw -/

def isStr : JVal → Bool
  | .str _ => true
  | _ => false

def strOrNullish : JVal → Bool
  | .str _ => true
  | .null => true
  | .undef => true
  | _ => false

/-- A present field must satisfy `P`; an absent field is always fine. -/
def fieldOk (fs : List (String × JVal)) (k : String) (P : JVal → Bool) : Bool :=
  match (fs.find? (fun kv => kv.1 = k)).map (fun kv => kv.2) with
  | none => true
  | some v => P v

def tagsOk : JVal → Bool
  | .arr xs => xs.all isStr
  | .null => true
  | .undef => true
  | _ => false

def catOk : JVal → Bool
  | .obj fs => fieldOk fs "id" strOrNullish && fieldOk fs "name" strOrNullish
  | _ => false

def promptOk : JVal → Bool
  | .obj fs => fieldOk fs "id" strOrNullish && fieldOk fs "title" strOrNullish &&
               fieldOk fs "content" strOrNullish && fieldOk fs "tags" tagsOk
  | _ => false

def listOk (P : JVal → Bool) : JVal → Bool
  | .arr xs => xs.all P
  | .null => true
  | .undef => true
  | _ => false

/-- A document object whose present fields all have their declared types
(fields may be missing; ids may be blank or duplicated; category references
may dangle; strings may be padded or empty). -/
def docOk : JVal → Bool
  | .obj fs => fieldOk fs "categories" (listOk catOk) && fieldOk fs "prompts" (listOk promptOk)
  | _ => false

/-! ### Totality of the raw normalizer on the well-typed fragment -/

theorem exbind_ok {α β : Type} (a : α) (f : α → Except String β) :
    (Except.ok a : Except String α) >>= f = f a := rfl

theorem exmap_ok {α β : Type} (a : α) (f : α → β) :
    (Except.ok a : Except String α).map f = .ok (f a) := rfl

theorem jget_obj (fs : List (String × JVal)) (k : String) :
    jget (JVal.obj fs) k =
      .ok (((fs.find? (fun kv => kv.1 = k)).map (fun kv => kv.2)).getD .undef) := rfl

theorem fieldOk_getD {fs : List (String × JVal)} {k : String} {P : JVal → Bool}
    (hP : P JVal.undef = true) (h : fieldOk fs k P = true) :
    P (((fs.find? (fun kv => kv.1 = k)).map (fun kv => kv.2)).getD .undef) = true := by
  unfold fieldOk at h
  rcases hf : (fs.find? (fun kv => kv.1 = k)).map (fun kv => kv.2) with _ | v
  · rw [hf]; exact hP
  · rw [hf]; rw [hf] at h; exact h

theorem jtrimCoalesce_ok {v : JVal} (h : strOrNullish v = true) :
    ∃ s, jtrim (jcoalesce v (.str "")) = .ok s := by
  cases v with
  | str s => exact ⟨jsTrim s, rfl⟩
  | null => exact ⟨"", rfl⟩
  | undef => exact ⟨"", rfl⟩
  | bool b => simp [strOrNullish] at h
  | num n => simp [strOrNullish] at h
  | arr xs => simp [strOrNullish] at h
  | obj fs => simp [strOrNullish] at h

theorem joptTrim_ok {v : JVal} (h : strOrNullish v = true) :
    ∃ w, joptTrim v = .ok w := by
  cases v with
  | str s => exact ⟨.str (jsTrim s), rfl⟩
  | null => exact ⟨.undef, rfl⟩
  | undef => exact ⟨.undef, rfl⟩
  | bool b => simp [strOrNullish] at h
  | num n => simp [strOrNullish] at h
  | arr xs => simp [strOrNullish] at h
  | obj fs => simp [strOrNullish] at h

theorem mapM_jtrim_ok :
    ∀ (xs : List JVal), (∀ x ∈ xs, isStr x = true) → ∃ ts, xs.mapM jtrim = .ok ts := by
  intro xs
  induction xs with
  | nil => intro _; exact ⟨[], rfl⟩
  | cons x rest ih =>
    intro h
    obtain ⟨ts, hts⟩ := ih (fun y hy => h y (List.mem_cons_of_mem _ hy))
    have hx := h x (List.mem_cons_self _ _)
    cases x with
    | str s =>
      refine ⟨jsTrim s :: ts, ?_⟩
      rw [List.mapM_cons]
      show (jtrim (.str s)) >>= _ = _
      rw [show jtrim (.str s) = .ok (jsTrim s) from rfl, exbind_ok, hts]
      rfl
    | null => simp [isStr] at hx
    | undef => simp [isStr] at hx
    | bool b => simp [isStr] at hx
    | num n => simp [isStr] at hx
    | arr ys => simp [isStr] at hx
    | obj fs => simp [isStr] at hx

theorem rawTags_ok {v : JVal} (h : tagsOk v = true) : ∃ ts, rawTags v = .ok ts := by
  cases v with
  | arr xs =>
    obtain ⟨ts, hts⟩ := mapM_jtrim_ok xs (by simpa [tagsOk, List.all_eq_true] using h)
    refine ⟨List.insertionSort tagLe (dedupFirst (ts.filter (fun t => t ≠ ""))), ?_⟩
    unfold rawTags
    show (xs.mapM jtrim).map _ = _
    rw [hts, exmap_ok]
  | null => exact ⟨[], rfl⟩
  | undef => exact ⟨[], rfl⟩
  | bool b => simp [tagsOk] at h
  | num n => simp [tagsOk] at h
  | str s => simp [tagsOk] at h
  | obj fs => simp [tagsOk] at h

theorem rawCatStep_ok (now : String) (acc : List (String × JVal)) {c : JVal}
    (h : catOk c = true) : ∃ acc', rawCatStep now acc c = .ok acc' := by
  cases c with
  | obj fs =>
    obtain ⟨hfid, hfname⟩ :
        fieldOk fs "id" strOrNullish = true ∧ fieldOk fs "name" strOrNullish = true := by
      simpa [catOk] using h
    obtain ⟨idt, hidt⟩ := jtrimCoalesce_ok (fieldOk_getD rfl hfid)
    obtain ⟨nw, hnw⟩ := joptTrim_ok (fieldOk_getD rfl hfname)
    simp only [rawCatStep, jget_obj, exbind_ok, hidt]
    by_cases h1 : idt = ""
    · rw [if_pos h1]; exact ⟨acc, rfl⟩
    · rw [if_neg h1]
      cases h2 : acc.any (fun kv => kv.1 = idt) with
      | true => simp only [if_pos]; exact ⟨acc, rfl⟩
      | false =>
        rw [if_neg (by simp [h2])]
        simp only [jget_obj, exbind_ok, hnw]
        exact ⟨_, rfl⟩
  | null => simp [catOk] at h
  | undef => simp [catOk] at h
  | bool b => simp [catOk] at h
  | num n => simp [catOk] at h
  | str s => simp [catOk] at h
  | arr xs => simp [catOk] at h

theorem rawPromptStep_ok (cats : List (String × JVal)) (now : String)
    (ids : Nat → String) {p : JVal} (h : promptOk p = true)
    (st : List (String × JVal) × Nat) :
    ∃ st', rawPromptStep cats now ids st p = .ok st' := by
  cases p with
  | obj fs =>
    have h' : (fieldOk fs "id" strOrNullish && fieldOk fs "title" strOrNullish &&
        fieldOk fs "content" strOrNullish && fieldOk fs "tags" tagsOk) = true := by
      simpa [promptOk] using h
    obtain ⟨⟨⟨hfid, hftitle⟩, hfcontent⟩, hftags⟩ := by
      simpa [Bool.and_eq_true] using h'
    obtain ⟨idt, hidt⟩ := jtrimCoalesce_ok (fieldOk_getD rfl hfid)
    obtain ⟨ts, hts⟩ := rawTags_ok (fieldOk_getD rfl hftags)
    obtain ⟨tw, htw⟩ := joptTrim_ok (fieldOk_getD rfl hftitle)
    obtain ⟨cw, hcw⟩ := joptTrim_ok (fieldOk_getD rfl hfcontent)
    simp only [rawPromptStep, jget_obj, exbind_ok, hidt]
    cases h2 : st.1.any (fun kv => kv.1 = if idt = "" then ids st.2 else idt) with
    | true => simp only [if_pos]; exact ⟨_, rfl⟩
    | false =>
      rw [if_neg (by simp [h2])]
      simp only [jget_obj, exbind_ok, hts, htw, hcw]
      exact ⟨_, rfl⟩
  | null => simp [promptOk] at h
  | undef => simp [promptOk] at h
  | bool b => simp [promptOk] at h
  | num n => simp [promptOk] at h
  | str s => simp [promptOk] at h
  | arr xs => simp [promptOk] at h

theorem foldlM_ok {σ α : Type} (f : σ → α → Except String σ) :
    ∀ (l : List α), (∀ a ∈ l, ∀ s, ∃ s', f s a = .ok s') →
      ∀ s, ∃ s', l.foldlM f s = .ok s' := by
  intro l
  induction l with
  | nil => intro _ s; exact ⟨s, rfl⟩
  | cons a rest ih =>
    intro h s
    obtain ⟨s1, hs1⟩ := h a (List.mem_cons_self _ _) s
    obtain ⟨s2, hs2⟩ := ih (fun b hb => h b (List.mem_cons_of_mem _ hb)) s1
    refine ⟨s2, ?_⟩
    rw [List.foldlM_cons, hs1, exbind_ok]
    exact hs2

theorem jsomeIdUnc_ok :
    ∀ (cs : List JVal), (∀ c ∈ cs, catOk c = true) → ∃ b, jsomeIdUnc cs = .ok b := by
  intro cs
  induction cs with
  | nil => intro _; exact ⟨false, rfl⟩
  | cons c rest ih =>
    intro h
    have hc := h c (List.mem_cons_self _ _)
    cases c with
    | obj fs =>
      unfold jsomeIdUnc
      rw [jget_obj]
      dsimp only
      by_cases hu : jstrEq (((fs.find? (fun kv => kv.1 = "id")).map
          (fun kv => kv.2)).getD .undef) UNCATEGORIZED_ID = true
      · rw [if_pos hu]; exact ⟨true, rfl⟩
      · rw [if_neg hu]; exact ih (fun x hx => h x (List.mem_cons_of_mem _ hx))
    | null => simp [catOk] at hc
    | undef => simp [catOk] at hc
    | bool b => simp [catOk] at hc
    | num n => simp [catOk] at hc
    | str s => simp [catOk] at hc
    | arr xs => simp [catOk] at hc

theorem jiterCoalesce_ok {v : JVal} {P : JVal → Bool} (h : listOk P v = true) :
    ∃ xs, jiter (jcoalesce v (.arr [])) = .ok xs ∧ ∀ x ∈ xs, P x = true := by
  cases v with
  | arr xs =>
    refine ⟨xs, rfl, ?_⟩
    simpa [listOk, List.all_eq_true] using h
  | null => exact ⟨[], rfl, by simp⟩
  | undef => exact ⟨[], rfl, by simp⟩
  | bool b => simp [listOk] at h
  | num n => simp [listOk] at h
  | str s => simp [listOk] at h
  | obj fs => simp [listOk] at h

theorem catOk_jUncatDefault (now : String) : catOk (jUncatDefault now) = true := rfl

/-- Totality of the raw UI normalizer on well-typed document objects. -/
theorem rawNormalizeDb_total {now : String} {ids : Nat → String} {v : JVal}
    (h : docOk v = true) : ∃ j, rawNormalizeDb now ids v = .ok j := by
  cases v with
  | obj fs =>
    obtain ⟨hfcats, hfprompts⟩ :
        fieldOk fs "categories" (listOk catOk) = true ∧
        fieldOk fs "prompts" (listOk promptOk) = true := by
      simpa [docOk] using h
    obtain ⟨cats0, hcats0, hcats0P⟩ := jiterCoalesce_ok (fieldOk_getD rfl hfcats)
    obtain ⟨b, hb⟩ := jsomeIdUnc_ok cats0 hcats0P
    have hcats1 : ∀ c ∈ (if b then cats0 else cats0 ++ [jUncatDefault now]), catOk c = true := by
      cases b with
      | true => simpa using hcats0P
      | false =>
        intro c hc
        rcases (by simpa using hc : c ∈ cats0 ∨ c = jUncatDefault now) with hc | rfl
        · exact hcats0P c hc
        · exact catOk_jUncatDefault now
    obtain ⟨catPairs, hcatPairs⟩ :=
      foldlM_ok (rawCatStep now) _ (fun c hc s => rawCatStep_ok now s (hcats1 c hc)) []
    obtain ⟨ps, hps, hpsP⟩ := jiterCoalesce_ok (fieldOk_getD rfl hfprompts)
    obtain ⟨final, hfinal⟩ :=
      foldlM_ok (rawPromptStep (if catPairs.any (fun kv => kv.1 = UNCATEGORIZED_ID)
          then catPairs else catPairs ++ [(UNCATEGORIZED_ID, jUncatDefault now)]) now ids)
        ps (fun p hp s => rawPromptStep_ok _ now ids (hpsP p hp) s) ([], 0)
    simp only [rawNormalizeDb, jget_obj, exbind_ok, hcats0, hb, hcatPairs, hps, hfinal]
    exact ⟨_, rfl⟩
  | null => simp [docOk] at h
  | undef => simp [docOk] at h
  | bool b => simp [docOk] at h
  | num n => simp [docOk] at h
  | str s => simp [docOk] at h
  | arr xs => simp [docOk] at h

/-! ## Concrete fixtures used by the claim witnesses -/

def wNow : String := "2024-01-01T00:00:00.000Z"

def wIds : Nat → String := fun _ => "fresh-id"

/-- A deliberately malformed document: version drift, a category with a
padded id and blank name and blank timestamp, a duplicate category id, a
prompt with a blank id and padded fields and a dangling category reference
and messy tags, a prompt with a padded id, and a duplicate prompt id. -/
def wDoc : DbFile :=
  { version := 0
  , categories := [{ id := " c1 ", name := "  ", createdAt := "" }
                  , { id := "c1", name := "Work", createdAt := "t1" }]
  , prompts :=
      [ { id := "", title := "  hello ", categoryId := "nope", content := " body "
        , tags := ["b", "a", "B", " ", "a"], favorite := true
        , createdAt := "", updatedAt := "", lastUsedAt := some "" }
      , { id := " p2", title := "T", categoryId := "c1", content := ""
        , tags := [], favorite := false, createdAt := "t0", updatedAt := ""
        , lastUsedAt := none }
      , { id := "p2", title := "dup", categoryId := "c1", content := ""
        , tags := [], favorite := false, createdAt := "t0", updatedAt := ""
        , lastUsedAt := none } ] }

/-- The first prompt of `normalizeDb wNow wIds wDoc`. -/
def wP : Prompt :=
  { id := "fresh-id", title := "hello", categoryId := UNCATEGORIZED_ID
  , content := "body", tags := ["a", "b", "B"], favorite := true
  , createdAt := wNow, updatedAt := wNow, lastUsedAt := none }

/-- The first category of `normalizeDb wNow wIds wDoc`. -/
def wCat : Category := { id := "c1", name := "Bez nazwy", createdAt := wNow }

def wSt : LibState := { db := wDoc, error := none, toast := none, backupPending := false }

/-! ## C1 — normalization idempotence -/

/-- C1: `normalize` is idempotent — for every document `D`, normalizing
`normalize(D)` again (with any clock value and any id supply) returns
`normalize(D)` unchanged: same categories and same prompts with the same
field values and tag ordering. The hypotheses state what the runtime
guarantees: `nowIso()` is never the empty string, and `uuid()` outputs are
nonblank and trim-invariant. -/
theorem normalizeDb_idempotent (now now2 : String) (ids ids2 : Nat → String)
    (hnow : now ≠ "") (hids : GoodIds ids) (D : DbFile) :
    normalizeDb now2 ids2 (normalizeDb now ids D) = normalizeDb now ids D :=
  normalizeDb_eq_self (cleanDb_normalizeDb hnow hids D)

theorem goodIds_const {s : String} (h1 : jsTrim s = s) (h2 : s ≠ "") :
    GoodIds (fun _ => s) := fun _ => ⟨h1, h2⟩

theorem normalizeDb_idempotent_witness :
    normalizeDb "t9" (fun _ => "other") (normalizeDb wNow wIds wDoc)
      = normalizeDb wNow wIds wDoc :=
  normalizeDb_idempotent wNow "t9" wIds (fun _ => "other")
    (by decide) (goodIds_const (by decide) (by decide)) wDoc

/-! ## C2 — totality of the normalizer over raw input -/

/-- C2 (counterexample): the UI `normalizeDb` is not total on raw input —
on `null` (which `JSON.parse` can produce) the very first property access
`input.categories` throws a `TypeError` instead of returning a repaired
document. -/
theorem rawNormalizeDb_null_throws :
    rawNormalizeDb "t0" (fun _ => "fresh") JVal.null = .error "TypeError" := rfl

/-- C2 (amended): the UI `normalizeDb` never throws on any raw document
object whose present fields have their declared types — fields may be
missing, ids blank or duplicated, category references dangling — and
returns a repaired document; but `null`/`undefined` input or wrong-typed
field values (non-string titles or tag entries) make it throw a
`TypeError`, which every caller guards with `try`/`catch`. -/
theorem rawNormalizeDb_total_wellTyped {now : String} {ids : Nat → String} {v : JVal}
    (h : docOk v = true) : ∃ j, rawNormalizeDb now ids v = .ok j :=
  rawNormalizeDb_total h

/-- A raw document object with missing fields, a missing prompts id, a
duplicate category id, a null category name and padded strings. -/
def wRaw : JVal :=
  .obj [ ("categories", .arr [ .obj [("id", .str "c1")]
                             , .obj [("id", .str "c1"), ("name", .null)] ])
       , ("prompts", .arr [ .obj [("title", .str "  hi ")]
                          , .obj [("id", .str "p"), ("tags", .arr [.str " x ", .str "x"])] ]) ]

theorem rawNormalizeDb_total_wellTyped_witness :
    (rawNormalizeDb "t0" (fun _ => "fresh") wRaw).isOk = true := by
  obtain ⟨j, hj⟩ := @rawNormalizeDb_total_wellTyped "t0" (fun _ => "fresh") wRaw rfl
  rw [hj]
  rfl

/-! ## C3 — the cross-context save path versus the UI normalizer -/

/-- A canonical document whose single prompt carries tags `["a", "B"]` —
already in the UI normalizer's order, but not in the background worker's. -/
def c3Doc : DbFile :=
  { version := 1
  , categories := [uncatDefault "t0"]
  , prompts := [{ id := "p1", title := "T", categoryId := UNCATEGORIZED_ID
                , content := "C", tags := ["a", "B"], favorite := false
                , createdAt := "t0", updatedAt := "t0", lastUsedAt := none }] }

/-- C3 (code evidence): the background worker's `normalizeDb` and the UI's
`normalizeDb` disagree — the worker sorts tags with the default code-unit
comparator, the UI with the Polish base-sensitivity comparator. A prompt
saved via `SAVE_PROMPT_FROM_PAGE` with tags `"a,B"` is stored with tags
`["B", "a"]`, which the UI's normalizer rewrites to `["a", "B"]` on next
load, mutating the saved document. -/
theorem savePromptFromPage_tags_mutated_on_load :
    (savePromptFromPage "t1" wIds "pid9" (defaultDb "t0")
        { title := "T", content := "C", tagsRaw := "a,B" }).map
      (fun D => D.prompts.map Prompt.tags) = .ok [["B", "a"]] ∧
    (savePromptFromPage "t1" wIds "pid9" (defaultDb "t0")
        { title := "T", content := "C", tagsRaw := "a,B" }).map
      (fun D => (normalizeDb "t2" wIds D).prompts.map Prompt.tags) = .ok [["a", "B"]] ∧
    bgNormalizeDb "t0" wIds c3Doc ≠ normalizeDb "t0" wIds c3Doc := by
  refine ⟨rfl, rfl, by decide⟩

/-! ## C4 — reserved category invariance -/

theorem countP_uncat_eq_one {l : List Category}
    (hnd : (l.map Category.id).Nodup)
    (hany : l.any (fun c => c.id = UNCATEGORIZED_ID) = true) :
    l.countP (fun c => c.id = UNCATEGORIZED_ID) = 1 := by
  induction l with
  | nil => simp at hany
  | cons c rest ih =>
    rw [List.countP_cons]
    by_cases hc : c.id = UNCATEGORIZED_ID
    · have hzero : rest.countP (fun c => c.id = UNCATEGORIZED_ID) = 0 := by
        rw [List.countP_eq_zero]
        intro a ha
        simp only [decide_eq_true_eq]
        intro heq
        have : c.id ∈ rest.map Category.id := by
          rw [hc, ← heq]
          exact List.mem_map.mpr ⟨a, ha, rfl⟩
        rw [List.map_cons, List.nodup_cons] at hnd
        exact hnd.1 this
      rw [hzero]
      simp [hc]
    · have hrest : rest.any (fun c => c.id = UNCATEGORIZED_ID) = true := by
        rw [List.any_cons] at hany
        rcases Bool.or_eq_true_iff.mp hany with h | h
        · exact absurd (by simpa using h) hc
        · exact h
      rw [List.map_cons, List.nodup_cons] at hnd
      rw [ih hnd.2 hrest]
      simp [hc]

/-- C4: reserved category invariance — every `normalizeDb` output contains
exactly one category with the reserved id `"uncategorized"`, and calling
`renameCategory` or `deleteCategory` on the reserved id surfaces a
validation error while leaving the document unchanged. -/
theorem reserved_category_invariance :
    (∀ (now : String) (ids : Nat → String) (D : DbFile), now ≠ "" → GoodIds ids →
       (normalizeDb now ids D).categories.countP
         (fun c => c.id = UNCATEGORIZED_ID) = 1) ∧
    (∀ (now : String) (ids : Nat → String) (name : String) (st : LibState),
       (renameCategory now ids UNCATEGORIZED_ID name st).db = st.db ∧
       (renameCategory now ids UNCATEGORIZED_ID name st).error.isSome = true) ∧
    (∀ (now : String) (ids : Nat → String) (st : LibState),
       (deleteCategory now ids UNCATEGORIZED_ID st).db = st.db ∧
       (deleteCategory now ids UNCATEGORIZED_ID st).error.isSome = true) := by
  refine ⟨?_, ?_, ?_⟩
  · intro now ids D hnow hids
    obtain ⟨_, _, hnd, hany, _, _⟩ := cleanDb_normalizeDb hnow hids D
    exact countP_uncat_eq_one hnd hany
  · intro now ids name st
    unfold renameCategory
    by_cases hn : jsTrim name = ""
    · rw [if_pos hn]
      exact ⟨rfl, rfl⟩
    · rw [if_neg hn, if_pos rfl]
      exact ⟨rfl, rfl⟩
  · intro now ids st
    unfold deleteCategory
    rw [if_pos rfl]
    exact ⟨rfl, rfl⟩

theorem reserved_category_invariance_witness :
    (normalizeDb wNow wIds wDoc).categories.countP
      (fun c => c.id = UNCATEGORIZED_ID) = 1 ∧
    (renameCategory wNow wIds UNCATEGORIZED_ID "Neu" wSt).db = wSt.db ∧
    (deleteCategory wNow wIds UNCATEGORIZED_ID wSt).error.isSome = true :=
  ⟨reserved_category_invariance.1 wNow wIds wDoc (by decide)
     (goodIds_const (by decide) (by decide)),
   (reserved_category_invariance.2.1 wNow wIds "Neu" wSt).1,
   (reserved_category_invariance.2.2 wNow wIds wSt).2⟩

/-- C5: referential integrity — every prompt in a `normalizeDb` output has
a `categoryId` equal to the id of some category in the output's category
list (unresolvable ids having been replaced by `"uncategorized"`). -/
theorem normalizeDb_referential_integrity (now : String) (ids : Nat → String)
    (hnow : now ≠ "") (hids : GoodIds ids) (D : DbFile) :
    ∀ p ∈ (normalizeDb now ids D).prompts,
      ∃ c ∈ (normalizeDb now ids D).categories, c.id = p.categoryId := by
  intro p hp
  obtain ⟨_, _, _, _, hpl, _⟩ := cleanDb_normalizeDb hnow hids D
  have hany := (hpl p hp).2.2.2.2.2.1
  obtain ⟨c, hc, hcid⟩ := List.any_eq_true.mp hany
  exact ⟨c, hc, by simpa using hcid⟩

theorem normalizeDb_referential_integrity_witness :
    ∃ c ∈ (normalizeDb wNow wIds wDoc).categories, c.id = wP.categoryId :=
  normalizeDb_referential_integrity wNow wIds (by decide)
    (goodIds_const (by decide) (by decide)) wDoc wP (by decide)

/-- C10: trimmed-text invariant — in every `normalizeDb` output each
prompt's title and content and each category's name equal their own
whitespace-trim, and each tag string is nonempty and trimmed. -/
theorem normalizeDb_trimmed (now : String) (ids : Nat → String)
    (hnow : now ≠ "") (hids : GoodIds ids) (D : DbFile) :
    (∀ p ∈ (normalizeDb now ids D).prompts,
       jsTrim p.title = p.title ∧ jsTrim p.content = p.content ∧
       ∀ t ∈ p.tags, jsTrim t = t ∧ t ≠ "") ∧
    (∀ c ∈ (normalizeDb now ids D).categories, jsTrim c.name = c.name) := by
  obtain ⟨_, hcl, _, _, hpl, _⟩ := cleanDb_normalizeDb hnow hids D
  constructor
  · intro p hp
    have h := hpl p hp
    exact ⟨h.2.2.1, h.2.2.2.2.1, h.2.2.2.2.2.2.1.1⟩
  · intro c hc
    exact (hcl c hc).2.2.1

theorem normalizeDb_trimmed_witness :
    jsTrim wP.title = wP.title ∧ jsTrim wP.content = wP.content ∧
    (jsTrim "a" = "a" ∧ "a" ≠ "") ∧ jsTrim wCat.name = wCat.name := by
  obtain ⟨h1, h2⟩ := normalizeDb_trimmed wNow wIds (by decide)
    (goodIds_const (by decide) (by decide)) wDoc
  have hp := h1 wP (by decide)
  exact ⟨hp.1, hp.2.1, hp.2.2 "a" (by decide), h2 wCat (by decide)⟩

/-! ## C6 — mutator error handling -/

def wDraftBlank : PromptDraft :=
  { id := none, title := "   ", categoryId := UNCATEGORIZED_ID
  , content := "C", tags := [], favorite := false }

/-- C6 (counterexample): `upsertPrompt`'s blank-title validation failure is
raised before `withValidation`, so it propagates to the caller instead of
being caught and surfaced as the current last-error value. -/
theorem upsertPrompt_blank_title_propagates :
    upsertPrompt wNow wIds "f1" wDraftBlank wSt = .error "Pole title jest wymagane" := rfl

/-- C6 (amended): the validation failures of `duplicatePrompt`,
`createCategory`, `renameCategory` and `deleteCategory` are caught at the
controller boundary and surfaced as the single current last-error value,
leaving the document (and toast/backup state) untouched; `upsertPrompt`'s
blank-field checks, however, are thrown to the caller (the document is
still untouched, since they run before any commit). -/
theorem mutator_validation_amended :
    (∀ (now : String) (ids : Nat → String) (fid : String) (draft : PromptDraft)
       (st : LibState), jsTrim draft.title = "" →
        upsertPrompt now ids fid draft st = .error "Pole title jest wymagane") ∧
    (∀ (now : String) (ids : Nat → String) (fid : String) (draft : PromptDraft)
       (st : LibState), jsTrim draft.title ≠ "" → jsTrim draft.categoryId = "" →
        upsertPrompt now ids fid draft st = .error "Pole categoryId jest wymagane") ∧
    (∀ (now : String) (ids : Nat → String) (fid : String) (draft : PromptDraft)
       (st : LibState), jsTrim draft.title ≠ "" → jsTrim draft.categoryId ≠ "" →
        jsTrim draft.content = "" →
        upsertPrompt now ids fid draft st = .error "Pole content jest wymagane") ∧
    (∀ (now : String) (ids : Nat → String) (cid i : String) (st : LibState),
        st.db.prompts.find? (fun p => p.id = i) = none →
        duplicatePrompt now ids cid i st =
          ({ st with error := some "Prompt nie istnieje" }, cid)) ∧
    (∀ (now : String) (ids : Nat → String) (fid name : String) (st : LibState),
        jsTrim name = "" →
        createCategory now ids fid name st =
          { st with error := some "Nazwa kategorii jest wymagana" }) ∧
    (∀ (now : String) (ids : Nat → String) (fid name : String) (st : LibState),
        jsTrim name ≠ "" →
        st.db.categories.any (fun c => jsToLower c.name = jsToLower (jsTrim name)) = true →
        createCategory now ids fid name st =
          { st with error := some "Kategoria o tej nazwie już istnieje" }) ∧
    (∀ (now : String) (ids : Nat → String) (name : String) (st : LibState),
        jsTrim name ≠ "" →
        renameCategory now ids UNCATEGORIZED_ID name st =
          { st with error := some "Nie można zmienić nazwy kategorii Bez kategorii" }) ∧
    (∀ (now : String) (ids : Nat → String) (i name : String) (st : LibState),
        jsTrim name ≠ "" → i ≠ UNCATEGORIZED_ID →
        st.db.categories.any
          (fun c => c.id ≠ i ∧ jsToLower c.name = jsToLower (jsTrim name)) = true →
        renameCategory now ids i name st =
          { st with error := some "Kategoria o tej nazwie już istnieje" }) ∧
    (∀ (now : String) (ids : Nat → String) (i name : String) (st : LibState),
        jsTrim name ≠ "" → i ≠ UNCATEGORIZED_ID →
        st.db.categories.any
          (fun c => c.id ≠ i ∧ jsToLower c.name = jsToLower (jsTrim name)) = false →
        st.db.categories.any (fun c => c.id = i) = false →
        renameCategory now ids i name st =
          { st with error := some "Kategoria nie istnieje" }) ∧
    (∀ (now : String) (ids : Nat → String) (st : LibState),
        deleteCategory now ids UNCATEGORIZED_ID st =
          { st with error := some "Nie można usunąć kategorii Bez kategorii" }) ∧
    (∀ (now : String) (ids : Nat → String) (i : String) (st : LibState),
        i ≠ UNCATEGORIZED_ID →
        st.db.categories.any (fun c => c.id = i) = false →
        deleteCategory now ids i st =
          { st with error := some "Kategoria nie istnieje" }) := by
  refine ⟨?_, ?_, ?_, ?_, ?_, ?_, ?_, ?_, ?_, ?_, ?_⟩
  · intro now ids fid draft st h
    unfold upsertPrompt
    rw [if_pos h]
  · intro now ids fid draft st h1 h2
    unfold upsertPrompt
    rw [if_neg h1, if_pos h2]
  · intro now ids fid draft st h1 h2 h3
    unfold upsertPrompt
    rw [if_neg h1, if_neg h2, if_pos h3]
  · intro now ids cid i st hfind
    unfold duplicatePrompt
    rw [hfind]
    rfl
  · intro now ids fid name st h
    unfold createCategory
    rw [if_pos h]
    rfl
  · intro now ids fid name st h1 h2
    unfold createCategory
    rw [if_neg h1, if_pos h2]
    rfl
  · intro now ids name st h1
    unfold renameCategory
    rw [if_neg h1, if_pos rfl]
    rfl
  · intro now ids i name st h1 h2 h3
    unfold renameCategory
    rw [if_neg h1, if_neg h2, if_pos h3]
    rfl
  · intro now ids i name st h1 h2 h3 h4
    unfold renameCategory
    rw [if_neg h1, if_neg h2, if_neg (by rw [h3]; decide), if_pos h4]
    rfl
  · intro now ids st
    unfold deleteCategory
    rw [if_pos rfl]
    rfl
  · intro now ids i st h1 h2
    unfold deleteCategory
    rw [if_neg h1, if_pos h2]
    rfl

theorem mutator_validation_amended_witness :
    upsertPrompt wNow wIds "f1" { wDraftBlank with title := " " } wSt
      = .error "Pole title jest wymagane" ∧
    upsertPrompt wNow wIds "f1"
      { id := none, title := "T", categoryId := " ", content := "C"
      , tags := [], favorite := false } wSt = .error "Pole categoryId jest wymagane" ∧
    upsertPrompt wNow wIds "f1"
      { id := none, title := "T", categoryId := "c1", content := "  "
      , tags := [], favorite := false } wSt = .error "Pole content jest wymagane" ∧
    duplicatePrompt wNow wIds "cp1" "zzz" wSt
      = ({ wSt with error := some "Prompt nie istnieje" }, "cp1") ∧
    createCategory wNow wIds "f2" " " wSt
      = { wSt with error := some "Nazwa kategorii jest wymagana" } ∧
    createCategory wNow wIds "f2" "work" wSt
      = { wSt with error := some "Kategoria o tej nazwie już istnieje" } ∧
    renameCategory wNow wIds UNCATEGORIZED_ID "Neu" wSt
      = { wSt with error := some "Nie można zmienić nazwy kategorii Bez kategorii" } ∧
    renameCategory wNow wIds "c9" "work" wSt
      = { wSt with error := some "Kategoria o tej nazwie już istnieje" } ∧
    renameCategory wNow wIds "c9" "Fresh" wSt
      = { wSt with error := some "Kategoria nie istnieje" } ∧
    deleteCategory wNow wIds UNCATEGORIZED_ID wSt
      = { wSt with error := some "Nie można usunąć kategorii Bez kategorii" } ∧
    deleteCategory wNow wIds "c9" wSt
      = { wSt with error := some "Kategoria nie istnieje" } :=
  ⟨mutator_validation_amended.1 wNow wIds "f1" _ wSt (by decide),
   mutator_validation_amended.2.1 wNow wIds "f1" _ wSt (by decide) (by decide),
   mutator_validation_amended.2.2.1 wNow wIds "f1" _ wSt (by decide) (by decide) (by decide),
   mutator_validation_amended.2.2.2.1 wNow wIds "cp1" "zzz" wSt (by decide),
   mutator_validation_amended.2.2.2.2.1 wNow wIds "f2" " " wSt (by decide),
   mutator_validation_amended.2.2.2.2.2.1 wNow wIds "f2" "work" wSt (by decide) (by decide),
   mutator_validation_amended.2.2.2.2.2.2.1 wNow wIds "Neu" wSt (by decide),
   mutator_validation_amended.2.2.2.2.2.2.2.1 wNow wIds "c9" "work" wSt
     (by decide) (by decide) (by decide),
   mutator_validation_amended.2.2.2.2.2.2.2.2.1 wNow wIds "c9" "Fresh" wSt
     (by decide) (by decide) (by decide) (by decide),
   mutator_validation_amended.2.2.2.2.2.2.2.2.2.1 wNow wIds wSt,
   mutator_validation_amended.2.2.2.2.2.2.2.2.2.2 wNow wIds "c9" wSt
     (by decide) (by decide)⟩

/-! ## C9 — `copyPrompt` and the `lastUsedAt` field -/

/-- Every prompt in `out` either has a null `lastUsedAt` or carries a
`lastUsedAt` value already present on some prompt of `inp`. -/
def PreservesLastUsed (inp out : List Prompt) : Prop :=
  ∀ q ∈ out, q.lastUsedAt = none ∨ ∃ p ∈ inp, p.lastUsedAt = q.lastUsedAt

theorem preserves_of_subset {a b : List Prompt} (h : ∀ q ∈ b, q ∈ a) :
    PreservesLastUsed a b := fun q hq => Or.inr ⟨q, h q hq, rfl⟩

theorem preserves_refl (l : List Prompt) : PreservesLastUsed l l :=
  preserves_of_subset (fun _ hq => hq)

theorem preserves_trans {a b c : List Prompt}
    (h1 : PreservesLastUsed a b) (h2 : PreservesLastUsed b c) : PreservesLastUsed a c := by
  intro q hq
  rcases h2 q hq with h | ⟨p, hp, hpe⟩
  · exact Or.inl h
  · rcases h1 p hp with h | ⟨r, hr, hre⟩
    · left; rw [← hpe]; exact h
    · exact Or.inr ⟨r, hr, hre.trans hpe⟩

theorem preserves_map_keep {l : List Prompt} {f : Prompt → Prompt}
    (h : ∀ p, (f p).lastUsedAt = p.lastUsedAt) : PreservesLastUsed l (l.map f) := by
  intro q hq
  obtain ⟨p, hp, rfl⟩ := List.mem_map.mp hq
  exact Or.inr ⟨p, hp, (h p).symm⟩

theorem preserves_append_nones {l extra : List Prompt}
    (h : ∀ q ∈ extra, q.lastUsedAt = none) : PreservesLastUsed l (l ++ extra) := by
  intro q hq
  rcases List.mem_append.mp hq with hq | hq
  · exact Or.inr ⟨q, hq, rfl⟩
  · exact Or.inl (h q hq)

theorem lastUsed_normPromptFields {cats : List Category} {now id : String} {p : Prompt} :
    (normPromptFields cats now id p).lastUsedAt = none ∨
    (normPromptFields cats now id p).lastUsedAt = p.lastUsedAt := by
  unfold normPromptFields
  dsimp only
  cases p.lastUsedAt with
  | none => left; rfl
  | some s =>
    by_cases hs : s = ""
    · left
      show (if s = "" then none else some s) = none
      rw [if_pos hs]
    · right
      show (if s = "" then none else some s) = some s
      rw [if_neg hs]

theorem promptFoldl_lastUsed {cats : List Category} {now : String} {ids : Nat → String}
    (P0 : List Prompt) :
    ∀ (ps : List Prompt) (st : List Prompt × Nat),
      (∀ p ∈ ps, p ∈ P0) → PreservesLastUsed P0 st.1 →
      PreservesLastUsed P0 (ps.foldl (addPrompt cats now ids) st).1 := by
  intro ps
  induction ps with
  | nil => intro st _ h; exact h
  | cons p rest ih =>
    intro st hmem hst
    rw [List.foldl_cons]
    refine ih _ (fun x hx => hmem x (List.mem_cons_of_mem _ hx)) ?_
    have hp0 : p ∈ P0 := hmem p (List.mem_cons_self _ _)
    have step : ∀ (pid : String),
        PreservesLastUsed P0 (st.1 ++ [normPromptFields cats now pid p]) := by
      intro pid q hq
      rcases List.mem_append.mp hq with hq | hq
      · exact hst q hq
      · rcases List.mem_singleton.mp hq with rfl
        rcases @lastUsed_normPromptFields cats now pid p
          with h | h
        · exact Or.inl h
        · exact Or.inr ⟨p, hp0, h.symm⟩
    unfold addPrompt
    by_cases he : jsTrim p.id = ""
    · rw [if_pos he]
      cases hany : st.1.any (fun q => q.id = ids st.2) with
      | true => simp only [if_pos]; exact hst
      | false => rw [if_neg (by simp [hany])]; exact step (ids st.2)
    · rw [if_neg he]
      cases hany : st.1.any (fun q => q.id = jsTrim p.id) with
      | true => simp only [if_pos]; exact hst
      | false => rw [if_neg (by simp [hany])]; exact step (jsTrim p.id)

theorem lastUsed_normalizeDb (now : String) (ids : Nat → String) (D : DbFile) :
    PreservesLastUsed D.prompts (normalizeDb now ids D).prompts := by
  unfold normalizeDb
  exact promptFoldl_lastUsed D.prompts D.prompts ([], 0) (fun _ hp => hp)
    (fun q hq => by simp at hq)

theorem preserves_commitOk {now : String} {ids : Nat → String} {newDb : DbFile}
    {toast : String} {st : LibState}
    (h : PreservesLastUsed st.db.prompts newDb.prompts) :
    PreservesLastUsed st.db.prompts (commitOk now ids newDb toast st).db.prompts :=
  preserves_trans h (lastUsed_normalizeDb now ids newDb)

theorem cleanDb_mapStamp {db : DbFile} {now i : String} (h : CleanDb db) (hnow : now ≠ "") :
    CleanDb { db with prompts := db.prompts.map (fun p =>
      if p.id = i then { p with lastUsedAt := some now, updatedAt := now } else p) } := by
  obtain ⟨hv, hcl, hcnd, hunc, hpl, hpnd⟩ := h
  refine ⟨hv, hcl, hcnd, hunc, ?_, ?_⟩
  · intro q hq
    obtain ⟨p, hp, rfl⟩ := List.mem_map.mp hq
    have hcp := hpl p hp
    by_cases hpi : p.id = i
    · rw [if_pos hpi]
      obtain ⟨h1, h2, h3, h4, h5, h6, h7, h8, h9, h10⟩ := hcp
      exact ⟨h1, h2, h3, h4, h5, h6, h7, h8, hnow, by simp [hnow]⟩
    · rw [if_neg hpi]; exact hcp
  · have hsame : (db.prompts.map (fun p =>
        if p.id = i then { p with lastUsedAt := some now, updatedAt := now } else p)).map
          Prompt.id = db.prompts.map Prompt.id := by
      rw [List.map_map]
      apply List.map_congr_left
      intro p _
      show (if p.id = i then { p with lastUsedAt := some now, updatedAt := now } else p).id
        = p.id
      by_cases hpi : p.id = i
      · rw [if_pos hpi]
      · rw [if_neg hpi]
    rw [hsame]
    exact hpnd

theorem find?_map_id_pres {l : List Prompt} {f : Prompt → Prompt} {i : String}
    (hid : ∀ p, (f p).id = p.id) :
    (l.map f).find? (fun q => q.id = i) = (l.find? (fun q => q.id = i)).map f := by
  induction l with
  | nil => rfl
  | cons p rest ih =>
    rw [List.map_cons]
    by_cases hp : p.id = i
    · have h1 : decide ((f p).id = i) = true := by simp [hid, hp]
      have h2 : decide (p.id = i) = true := by simp [hp]
      rw [List.find?_cons, List.find?_cons, h1, h2]
      rfl
    · have h1 : decide ((f p).id = i) = false := by simp [hid, hp]
      have h2 : decide (p.id = i) = false := by simp [hp]
      rw [List.find?_cons, List.find?_cons, h1, h2]
      exact ih

/-- C9: the `copyPrompt` contract — on a missing id or a failed clipboard
sink an error is surfaced and the document is untouched; on success the
targeted prompt's `lastUsedAt` and `updatedAt` are both stamped to the
current instant while `createdAt` (and every other field) is unchanged; and
no other mutator (`upsertPrompt`, `deletePrompt`, `duplicatePrompt`,
`createCategory`, `renameCategory`, `deleteCategory`) ever stores a
`lastUsedAt` value that is not either null or inherited from an existing
prompt. -/
theorem copyPrompt_contract :
    (∀ (now : String) (ids : Nat → String) (sinkOk : Bool) (i : String) (st : LibState),
        st.db.prompts.find? (fun p => p.id = i) = none →
        copyPrompt now ids sinkOk i st = { st with error := some "Prompt nie istnieje" }) ∧
    (∀ (now : String) (ids : Nat → String) (i : String) (st : LibState) (p : Prompt),
        st.db.prompts.find? (fun q => q.id = i) = some p →
        copyPrompt now ids false i st =
          { st with error := some "Nie udało się skopiować do schowka" }) ∧
    (∀ (now : String) (ids : Nat → String) (i : String) (st : LibState) (p : Prompt),
        now ≠ "" → CleanDb st.db →
        st.db.prompts.find? (fun q => q.id = i) = some p →
        (copyPrompt now ids true i st).db.prompts.find? (fun q => q.id = i) =
          some { p with lastUsedAt := some now, updatedAt := now }) ∧
    (∀ (now : String) (ids : Nat → String) (fid : String) (draft : PromptDraft)
       (st : LibState) (out : LibState) (pid : String),
        upsertPrompt now ids fid draft st = .ok (out, pid) →
        PreservesLastUsed st.db.prompts out.db.prompts) ∧
    (∀ (now : String) (ids : Nat → String) (i : String) (st : LibState),
        PreservesLastUsed st.db.prompts (deletePrompt now ids i st).db.prompts) ∧
    (∀ (now : String) (ids : Nat → String) (cid i : String) (st : LibState),
        PreservesLastUsed st.db.prompts ((duplicatePrompt now ids cid i st).1).db.prompts) ∧
    (∀ (now : String) (ids : Nat → String) (fid nm : String) (st : LibState),
        PreservesLastUsed st.db.prompts (createCategory now ids fid nm st).db.prompts) ∧
    (∀ (now : String) (ids : Nat → String) (i nm : String) (st : LibState),
        PreservesLastUsed st.db.prompts (renameCategory now ids i nm st).db.prompts) ∧
    (∀ (now : String) (ids : Nat → String) (i : String) (st : LibState),
        PreservesLastUsed st.db.prompts (deleteCategory now ids i st).db.prompts) := by
  refine ⟨?_, ?_, ?_, ?_, ?_, ?_, ?_, ?_, ?_⟩
  · intro now ids sinkOk i st hfind
    unfold copyPrompt
    rw [hfind]
    rfl
  · intro now ids i st p hfind
    unfold copyPrompt
    rw [hfind]
    rfl
  · intro now ids i st p hnow hclean hfind
    unfold copyPrompt
    rw [hfind]
    show (commitOk now ids _ _ st).db.prompts.find? _ = _
    unfold commitOk
    dsimp only
    rw [normalizeDb_eq_self (cleanDb_mapStamp hclean hnow)]
    dsimp only
    rw [find?_map_id_pres (fun q => by
      by_cases hq : q.id = i
      · rw [if_pos hq]
      · rw [if_neg hq]), hfind]
    have hpi : p.id = i := by
      have := List.find?_some hfind
      simpa using this
    show some (if p.id = i then _ else p) = _
    rw [if_pos hpi]
  · intro now ids fid draft st out pid hok
    unfold upsertPrompt at hok
    by_cases h1 : jsTrim draft.title = ""
    · rw [if_pos h1] at hok; exact absurd hok (by simp)
    · rw [if_neg h1] at hok
      by_cases h2 : jsTrim draft.categoryId = ""
      · rw [if_pos h2] at hok; exact absurd hok (by simp)
      · rw [if_neg h2] at hok
        by_cases h3 : jsTrim draft.content = ""
        · rw [if_pos h3] at hok; exact absurd hok (by simp)
        · rw [if_neg h3] at hok
          have hout := congrArg (fun e => match e with
            | Except.ok (o, _) => o
            | Except.error _ => out) hok
          dsimp only at hout
          rw [← hout]
          apply preserves_commitOk
          dsimp only
          cases hany : st.db.prompts.any (fun p => p.id =
              (match draft.id with
               | some s => if s = "" then fid else s
               | none => fid)) with
          | true =>
            simp only [if_pos]
            apply preserves_map_keep
            intro q
            by_cases hq : q.id = (match draft.id with
               | some s => if s = "" then fid else s
               | none => fid)
            · rw [if_pos hq]
            · rw [if_neg hq]
          | false =>
            rw [if_neg (by simp [hany])]
            apply preserves_append_nones
            intro q hq
            rcases List.mem_singleton.mp hq with rfl
            rfl
  · intro now ids i st
    unfold deletePrompt
    apply preserves_commitOk
    exact preserves_of_subset (fun q hq => (List.mem_filter.mp hq).1)
  · intro now ids cid i st
    unfold duplicatePrompt
    cases hfind : st.db.prompts.find? (fun p => p.id = i) with
    | none => exact preserves_refl _
    | some original =>
      show PreservesLastUsed st.db.prompts (commitOk now ids _ _ st).db.prompts
      apply preserves_commitOk
      apply preserves_append_nones
      intro q hq
      rcases List.mem_singleton.mp hq with rfl
      rfl
  · intro now ids fid nm st
    unfold createCategory
    by_cases h1 : jsTrim nm = ""
    · rw [if_pos h1]; exact preserves_refl _
    · rw [if_neg h1]
      cases h2 : st.db.categories.any (fun c => jsToLower c.name = jsToLower (jsTrim nm)) with
      | true => simp only [if_pos]; exact preserves_refl _
      | false =>
        rw [if_neg (by simp [h2])]
        exact preserves_commitOk (preserves_refl _)
  · intro now ids i nm st
    unfold renameCategory
    by_cases h1 : jsTrim nm = ""
    · rw [if_pos h1]; exact preserves_refl _
    · rw [if_neg h1]
      by_cases h2 : i = UNCATEGORIZED_ID
      · rw [if_pos h2]; exact preserves_refl _
      · rw [if_neg h2]
        cases h3 : st.db.categories.any
            (fun c => c.id ≠ i ∧ jsToLower c.name = jsToLower (jsTrim nm)) with
        | true => simp only [if_pos]; exact preserves_refl _
        | false =>
          rw [if_neg (by simp [h3])]
          by_cases h4 : st.db.categories.any (fun c => c.id = i) = false
          · rw [if_pos h4]; exact preserves_refl _
          · rw [if_neg h4]
            exact preserves_commitOk (preserves_refl _)
  · intro now ids i st
    unfold deleteCategory
    by_cases h1 : i = UNCATEGORIZED_ID
    · rw [if_pos h1]; exact preserves_refl _
    · rw [if_neg h1]
      by_cases h2 : st.db.categories.any (fun c => c.id = i) = false
      · rw [if_pos h2]; exact preserves_refl _
      · rw [if_neg h2]
        apply preserves_commitOk
        apply preserves_map_keep
        intro p
        by_cases hp : p.categoryId = i
        · rw [if_pos hp]
        · rw [if_neg hp]

/-- The canonical form of `wDoc`, with its second prompt. -/
def wCleanSt : LibState :=
  { db := normalizeDb wNow wIds wDoc, error := none, toast := none, backupPending := false }

def wP2 : Prompt :=
  { id := "p2", title := "T", categoryId := "c1", content := ""
  , tags := [], favorite := false, createdAt := "t0", updatedAt := "t0"
  , lastUsedAt := none }

theorem copyPrompt_contract_witness :
    copyPrompt wNow wIds true "zzz" wCleanSt
      = { wCleanSt with error := some "Prompt nie istnieje" } ∧
    copyPrompt wNow wIds false "p2" wCleanSt
      = { wCleanSt with error := some "Nie udało się skopiować do schowka" } ∧
    (copyPrompt wNow wIds true "p2" wCleanSt).db.prompts.find? (fun q => q.id = "p2")
      = some { wP2 with lastUsedAt := some wNow, updatedAt := wNow } :=
  ⟨copyPrompt_contract.1 wNow wIds true "zzz" wCleanSt (by decide),
   copyPrompt_contract.2.1 wNow wIds "p2" wCleanSt wP2 (by decide),
   copyPrompt_contract.2.2.1 wNow wIds "p2" wCleanSt wP2 (by decide) (by decide) (by decide)⟩

/-! ## Association-map lemmas for the merge engine -/

theorem aset_mem {α : Type} {m : List (String × α)} {k : String} {v : α}
    {kv : String × α} (h : kv ∈ aset m k v) : kv ∈ m ∨ kv = (k, v) := by
  unfold aset at h
  cases hhas : m.any (fun kv => kv.1 = k) with
  | true =>
    rw [if_pos (by simp [hhas])] at h
    obtain ⟨kv0, hkv0, hmap⟩ := List.mem_map.mp h
    by_cases hk : kv0.1 = k
    · rw [if_pos hk] at hmap
      exact Or.inr hmap.symm
    · rw [if_neg hk] at hmap
      exact Or.inl (hmap ▸ hkv0)
  | false =>
    rw [if_neg (by simp [hhas])] at h
    rcases List.mem_append.mp h with h | h
    · exact Or.inl h
    · exact Or.inr (List.mem_singleton.mp h)

theorem aset_keys_replace {α : Type} {m : List (String × α)} {k : String} {v : α}
    (hhas : m.any (fun kv => kv.1 = k) = true) :
    (aset m k v).map (fun kv => kv.1) = m.map (fun kv => kv.1) := by
  unfold aset
  rw [if_pos (by simp [hhas]), List.map_map]
  apply List.map_congr_left
  intro kv _
  by_cases hk : kv.1 = k
  · show (if kv.1 = k then (k, v) else kv).1 = kv.1
    rw [if_pos hk, hk]
  · show (if kv.1 = k then (k, v) else kv).1 = kv.1
    rw [if_neg hk]

theorem aset_keys_append {α : Type} {m : List (String × α)} {k : String} {v : α}
    (hhas : m.any (fun kv => kv.1 = k) = false) :
    (aset m k v).map (fun kv => kv.1) = m.map (fun kv => kv.1) ++ [k] := by
  unfold aset
  rw [if_neg (by simp [hhas]), List.map_append]
  rfl

theorem aset_hasKey {α : Type} (m : List (String × α)) (k : String) (v : α) :
    (aset m k v).any (fun kv => kv.1 = k) = true := by
  unfold aset
  cases hhas : m.any (fun kv => kv.1 = k) with
  | true =>
    rw [if_pos (by simp [hhas])]
    obtain ⟨kv0, hkv0, hk⟩ := List.any_eq_true.mp hhas
    refine List.any_eq_true.mpr ⟨(k, v), List.mem_map.mpr ⟨kv0, hkv0, ?_⟩, by simp⟩
    rw [if_pos (by simpa using hk)]
  | false =>
    rw [if_neg (by simp [hhas])]
    refine List.any_eq_true.mpr ⟨(k, v), ?_, by simp⟩
    exact List.mem_append.mpr (Or.inr (List.mem_singleton.mpr rfl))

theorem aset_hasKey_mono {α : Type} {m : List (String × α)} {key k : String} {v : α}
    (h : m.any (fun kv => kv.1 = key) = true) :
    (aset m k v).any (fun kv => kv.1 = key) = true := by
  cases hhas : m.any (fun kv => kv.1 = k) with
  | true =>
    have hkeys := aset_keys_replace (m := m) (k := k) (v := v) hhas
    obtain ⟨kv0, hkv0, hk⟩ := List.any_eq_true.mp h
    have : key ∈ (aset m k v).map (fun kv => kv.1) := by
      rw [hkeys]
      exact List.mem_map.mpr ⟨kv0, hkv0, by simpa using hk⟩
    obtain ⟨kv1, hkv1, hkk⟩ := List.mem_map.mp this
    exact List.any_eq_true.mpr ⟨kv1, hkv1, by simpa using hkk⟩
  | false =>
    have hkeys := aset_keys_append (m := m) (k := k) (v := v) hhas
    obtain ⟨kv0, hkv0, hk⟩ := List.any_eq_true.mp h
    have : key ∈ (aset m k v).map (fun kv => kv.1) := by
      rw [hkeys]
      exact List.mem_append.mpr (Or.inl (List.mem_map.mpr ⟨kv0, hkv0, by simpa using hk⟩))
    obtain ⟨kv1, hkv1, hkk⟩ := List.mem_map.mp this
    exact List.any_eq_true.mpr ⟨kv1, hkv1, by simpa using hkk⟩

theorem aget_eq_none {α : Type} {m : List (String × α)} {k : String}
    (h : ∀ kv ∈ m, kv.1 ≠ k) : aget m k = none := by
  unfold aget
  rw [List.find?_eq_none.mpr (fun kv hkv => by simpa using h kv hkv)]
  rfl

theorem aget_aset_self {α : Type} (m : List (String × α)) (k : String) (v : α) :
    aget (aset m k v) k = some v := by
  unfold aset
  cases hhas : m.any (fun kv => kv.1 = k) with
  | true =>
    rw [if_pos (by simp [hhas])]
    induction m with
    | nil => simp at hhas
    | cons kv0 rest ih =>
      by_cases hk : kv0.1 = k
      · unfold aget
        rw [List.map_cons, if_pos hk, List.find?_cons]
        rw [show (decide ((k, v).1 = k)) = true by simp]
        rfl
      · unfold aget
        rw [List.map_cons, if_neg hk, List.find?_cons]
        rw [show (decide (kv0.1 = k)) = false by simp [hk]]
        have hrest : rest.any (fun kv => kv.1 = k) = true := by
          rw [List.any_cons] at hhas
          rcases Bool.or_eq_true_iff.mp hhas with h | h
          · exact absurd (by simpa using h) hk
          · exact h
        exact ih hrest
  | false =>
    rw [if_neg (by simp [hhas])]
    have hall := List.any_eq_false.mp hhas
    unfold aget
    induction m with
    | nil =>
      rw [List.nil_append, List.find?_cons]
      rw [show (decide ((k, v).1 = k)) = true by simp]
      rfl
    | cons kv0 rest ih =>
      rw [List.cons_append, List.find?_cons]
      have hk : kv0.1 ≠ k := by
        have := hall kv0 (List.mem_cons_self _ _)
        simpa using this
      rw [show (decide (kv0.1 = k)) = false by simp [hk]]
      exact ih (by
        rw [List.any_cons] at hhas
        rcases Bool.or_eq_false_iff.mp hhas with ⟨_, h⟩
        exact h) (fun kv hkv => hall kv (List.mem_cons_of_mem _ hkv))

theorem aget_aset_ne {α : Type} {m : List (String × α)} {key k : String} {v : α}
    (hne : key ≠ k) : aget (aset m k v) key = aget m key := by
  unfold aset
  cases hhas : m.any (fun kv => kv.1 = k) with
  | true =>
    rw [if_pos (by simp [hhas])]
    clear hhas
    induction m with
    | nil => rfl
    | cons kv0 rest ih =>
      unfold aget
      rw [List.map_cons, List.find?_cons, List.find?_cons]
      by_cases hk : kv0.1 = k
      · rw [if_pos hk]
        rw [show (decide ((k, v).1 = key)) = false by simp [Ne.symm hne]]
        rw [show (decide (kv0.1 = key)) = false by simp [hk, Ne.symm hne]]
        exact ih
      · rw [if_neg hk]
        cases hd : decide (kv0.1 = key) with
        | true => rfl
        | false => exact ih
  | false =>
    rw [if_neg (by simp [hhas])]
    unfold aget
    induction m with
    | nil =>
      rw [List.nil_append, List.find?_cons]
      rw [show (decide ((k, v).1 = key)) = false by simp [Ne.symm hne]]
    | cons kv0 rest ih =>
      rw [List.cons_append, List.find?_cons, List.find?_cons]
      cases hd : decide (kv0.1 = key) with
      | true => rfl
      | false =>
        exact ih (by
          rw [List.any_cons] at hhas
          rcases Bool.or_eq_false_iff.mp hhas with ⟨_, h⟩
          exact h)

theorem aget_mem {α : Type} {m : List (String × α)} {k : String} {v : α}
    (h : aget m k = some v) : (k, v) ∈ m := by
  unfold aget at h
  cases hf : m.find? (fun kv => kv.1 = k) with
  | none => rw [hf] at h; simp at h
  | some kv =>
    rw [hf] at h
    have hmem := List.mem_of_find?_eq_some hf
    have hkey : kv.1 = k := by simpa using List.find?_some hf
    have hval : kv.2 = v := by simpa using h
    have : kv = (k, v) := Prod.ext hkey hval
    exact this ▸ hmem

theorem mapFromPairs_mem {α : Type} {l : List (String × α)} {kv : String × α}
    (h : kv ∈ mapFromPairs l) : kv ∈ l := by
  unfold mapFromPairs at h
  suffices hgen : ∀ (xs : List (String × α)) (acc : List (String × α)),
      (∀ kv' ∈ acc, kv' ∈ l) → (∀ kv' ∈ xs, kv' ∈ l) →
      ∀ kv' ∈ xs.foldl (fun m kv => aset m kv.1 kv.2) acc, kv' ∈ l by
    exact hgen l [] (by simp) (fun _ h => h) kv h
  intro xs
  induction xs with
  | nil => intro acc hacc _ kv' hkv'; exact hacc kv' hkv'
  | cons x rest ih =>
    intro acc hacc hxs kv' hkv'
    rw [List.foldl_cons] at hkv'
    refine ih (aset acc x.1 x.2) ?_ (fun y hy => hxs y (List.mem_cons_of_mem _ hy)) kv' hkv'
    intro y hy
    rcases aset_mem hy with hy | rfl
    · exact hacc y hy
    · exact hxs x (List.mem_cons_self _ _)

theorem mapFromPairs_hasKey {α : Type} {l : List (String × α)} {k : String} {v : α}
    (h : (k, v) ∈ l) : (mapFromPairs l).any (fun kv => kv.1 = k) = true := by
  unfold mapFromPairs
  suffices hgen : ∀ (xs acc : List (String × α)),
      ((k, v) ∈ xs ∨ acc.any (fun kv => kv.1 = k) = true) →
      (xs.foldl (fun m kv => aset m kv.1 kv.2) acc).any (fun kv => kv.1 = k) = true by
    exact hgen l [] (Or.inl h)
  intro xs
  induction xs with
  | nil =>
    intro acc hacc
    rcases hacc with h | h
    · simp at h
    · exact h
  | cons x rest ih =>
    intro acc hacc
    rw [List.foldl_cons]
    refine ih (aset acc x.1 x.2) ?_
    rcases hacc with h | h
    · rcases List.mem_cons.mp h with h | h
      · right
        rw [← h]
        exact aset_hasKey acc (k, v).1 (k, v).2
      · exact Or.inl h
    · exact Or.inr (aset_hasKey_mono h)

theorem mapFromPairs_eq_self {α : Type} {l : List (String × α)}
    (hnd : (l.map (fun kv => kv.1)).Nodup) : mapFromPairs l = l := by
  unfold mapFromPairs
  suffices hgen : ∀ (xs acc : List (String × α)),
      ((acc ++ xs).map (fun kv => kv.1)).Nodup →
      xs.foldl (fun m kv => aset m kv.1 kv.2) acc = acc ++ xs by
    simpa using hgen l [] (by simpa using hnd)
  intro xs
  induction xs with
  | nil => intro acc _; simp
  | cons x rest ih =>
    intro acc hnd'
    rw [List.foldl_cons]
    have hnotin : acc.any (fun kv => kv.1 = x.1) = false := by
      rw [List.any_eq_false]
      intro kv hkv
      simp only [decide_eq_true_eq]
      intro heq
      rw [List.map_append, List.nodup_append] at hnd'
      exact hnd'.2.2 (List.mem_map.mpr ⟨kv, hkv, rfl⟩)
        (by
          rw [List.map_cons]
          exact heq ▸ List.mem_cons_self _ _)
    have hset : aset acc x.1 x.2 = acc ++ [x] := by
      unfold aset
      rw [if_neg (by simp [hnotin])]
    rw [hset]
    have hnd'' : (((acc ++ [x]) ++ rest).map (fun kv => kv.1)).Nodup := by
      simpa [List.append_assoc] using hnd'
    rw [ih (acc ++ [x]) hnd'']
    simp

/-! ## The merge engine's category phase -/

theorem any_append_l {α : Type} {l : List α} {p : α → Bool} (h : l.any p = true)
    (A : List α) : (l ++ A).any p = true := by
  rw [List.any_append, h]
  rfl

theorem aset_keys_nodup {α : Type} {m : List (String × α)} {k : String} {v : α}
    (h : (m.map (fun kv => kv.1)).Nodup) :
    ((aset m k v).map (fun kv => kv.1)).Nodup := by
  cases hhas : m.any (fun kv => kv.1 = k) with
  | true => rw [aset_keys_replace hhas]; exact h
  | false =>
    rw [aset_keys_append hhas, List.nodup_append]
    refine ⟨h, List.nodup_singleton _, ?_⟩
    intro x hx hx'
    rcases List.mem_singleton.mp hx' with rfl
    obtain ⟨kv, hkv, hk⟩ := List.mem_map.mp hx
    have := List.any_eq_false.mp hhas kv hkv
    simp [hk] at this

theorem mergeCatStep_has (mids : Nat → String) (s : MergeCatState) (c : Category)
    (hne : c.id ≠ "") (hhas : s.idMap.any (fun kv => kv.1 = c.id) = true) :
    mergeCatStep mids s c = { s with idMap := aset s.idMap c.id c.id } := by
  unfold mergeCatStep
  rw [if_neg hne, if_neg hne, if_pos hhas]

theorem mergeCatStep_name (mids : Nat → String) (s : MergeCatState) (c : Category)
    (hne : c.id ≠ "") (hhas : s.idMap.any (fun kv => kv.1 = c.id) = false)
    (hname : (aget s.nameMap (jsToLower c.name)).getD "" ≠ "") :
    mergeCatStep mids s c =
      { s with idMap := aset s.idMap c.id ((aget s.nameMap (jsToLower c.name)).getD "") } := by
  unfold mergeCatStep
  rw [if_neg hne, if_neg hne, if_neg (by simp [hhas]), if_pos hname]

theorem mergeCatStep_append (mids : Nat → String) (s : MergeCatState) (c : Category)
    (hne : c.id ≠ "") (hhas : s.idMap.any (fun kv => kv.1 = c.id) = false)
    (hname : (aget s.nameMap (jsToLower c.name)).getD "" = "") :
    mergeCatStep mids s c =
      { cats := s.cats ++ [c], idMap := aset s.idMap c.id c.id
      , nameMap := aset s.nameMap (jsToLower c.name) c.id, counter := s.counter } := by
  unfold mergeCatStep
  rw [if_neg hne, if_neg hne, if_neg (by simp [hhas]), if_neg (by simp [hname])]

/-- The bundled invariant of the imported-category loop. -/
theorem mergeCatFoldl_inv (mids : Nat → String) :
    ∀ (imps : List Category) (done : List String) (s : MergeCatState),
      (∀ c ∈ imps, CleanCat c) →
      (done ++ imps.map Category.id).Nodup →
      (∀ c ∈ s.cats, CleanCat c) →
      ((s.cats.map Category.id).Nodup) →
      (s.cats.any (fun c => c.id = UNCATEGORIZED_ID) = true) →
      (∀ kv ∈ s.idMap, s.cats.any (fun c => c.id = kv.2) = true) →
      (∀ kv ∈ s.nameMap, s.cats.any (fun c => c.id = kv.2) = true) →
      (∀ kv ∈ s.idMap, s.cats.any (fun c => c.id = kv.1) = true ∨ kv.1 ∈ done) →
      (∀ c ∈ s.cats, s.idMap.any (fun kv => kv.1 = c.id) = true) →
      (∀ k ∈ (imps.foldl (mergeCatStep mids) s).cats, CleanCat k) ∧
      (((imps.foldl (mergeCatStep mids) s).cats.map Category.id).Nodup) ∧
      ((imps.foldl (mergeCatStep mids) s).cats.any
        (fun c => c.id = UNCATEGORIZED_ID) = true) ∧
      (∀ kv ∈ (imps.foldl (mergeCatStep mids) s).idMap,
        (imps.foldl (mergeCatStep mids) s).cats.any (fun c => c.id = kv.2) = true) ∧
      (∃ A, (imps.foldl (mergeCatStep mids) s).cats = s.cats ++ A) := by
  intro imps
  induction imps with
  | nil =>
    intro done s _ _ h1 h2 h3 h4 _ _ _
    exact ⟨h1, h2, h3, h4, [], by simp⟩
  | cons c rest ih =>
    intro done s hcl hdnd h1 h2 h3 h4 h5 h6 h7
    have hcClean := hcl c (List.mem_cons_self _ _)
    have hcne : c.id ≠ "" := hcClean.2.1
    have hdnd' : ((done ++ [c.id]) ++ rest.map Category.id).Nodup := by
      simpa [List.append_assoc] using (by simpa using hdnd :
        (done ++ (c.id :: rest.map Category.id)).Nodup)
    have hcnotdone : c.id ∉ done := by
      have h := (by simpa using hdnd : (done ++ (c.id :: rest.map Category.id)).Nodup)
      rw [List.nodup_append] at h
      intro hc
      exact h.2.2 hc (List.mem_cons_self _ _)
    rw [List.foldl_cons]
    cases hhas : s.idMap.any (fun kv => kv.1 = c.id) with
    | true =>
      rw [mergeCatStep_has mids s c hcne hhas]
      have hcid : s.cats.any (fun c' => c'.id = c.id) = true := by
        obtain ⟨kv0, hkv0, hk⟩ := List.any_eq_true.mp hhas
        rcases h6 kv0 hkv0 with h | h
        · rw [show kv0.1 = c.id from by simpa using hk] at h
          exact h
        · rw [show kv0.1 = c.id from by simpa using hk] at h
          exact absurd h hcnotdone
      refine ih (done ++ [c.id]) _ (fun x hx => hcl x (List.mem_cons_of_mem _ hx))
        hdnd' h1 h2 h3 ?_ h5 ?_ ?_
      · intro kv hkv
        rcases aset_mem hkv with hkv | rfl
        · exact h4 kv hkv
        · exact hcid
      · intro kv hkv
        rcases aset_mem hkv with hkv | rfl
        · rcases h6 kv hkv with h | h
          · exact Or.inl h
          · exact Or.inr (List.mem_append.mpr (Or.inl h))
        · exact Or.inr (List.mem_append.mpr (Or.inr (List.mem_singleton.mpr rfl)))
      · intro c' hc'
        exact aset_hasKey_mono (h7 c' hc')
    | false =>
      by_cases hname : (aget s.nameMap (jsToLower c.name)).getD "" = ""
      · -- append branch
        rw [mergeCatStep_append mids s c hcne hhas hname]
        have hnotin : c.id ∉ s.cats.map Category.id := by
          intro hmem
          obtain ⟨cat, hcat, hcatid⟩ := List.mem_map.mp hmem
          have := h7 cat hcat
          rw [hcatid] at this
          rw [this] at hhas
          simp at hhas
        have hc' : c ∈ s.cats ++ [c] :=
          List.mem_append.mpr (Or.inr (List.mem_singleton.mpr rfl))
        have hanyc : (s.cats ++ [c]).any (fun c' => c'.id = c.id) = true :=
          List.any_eq_true.mpr ⟨c, hc', by simp⟩
        obtain ⟨r1, r2, r3, r4, A, hA⟩ :=
          ih (done ++ [c.id])
            { cats := s.cats ++ [c], idMap := aset s.idMap c.id c.id
            , nameMap := aset s.nameMap (jsToLower c.name) c.id, counter := s.counter }
            (fun x hx => hcl x (List.mem_cons_of_mem _ hx)) hdnd'
            (by
              intro k hk
              rcases List.mem_append.mp hk with hk | hk
              · exact h1 k hk
              · rcases List.mem_singleton.mp hk with rfl
                exact hcClean)
            (by
              rw [List.map_append, List.nodup_append]
              refine ⟨h2, List.nodup_singleton _, ?_⟩
              intro x hx hx'
              rcases List.mem_singleton.mp hx' with rfl
              exact hnotin hx)
            (any_append_l h3 _)
            (by
              intro kv hkv
              rcases aset_mem hkv with hkv | rfl
              · exact any_append_l (h4 kv hkv) _
              · exact hanyc)
            (by
              intro kv hkv
              rcases aset_mem hkv with hkv | rfl
              · exact any_append_l (h5 kv hkv) _
              · exact hanyc)
            (by
              intro kv hkv
              rcases aset_mem hkv with hkv | rfl
              · rcases h6 kv hkv with h | h
                · exact Or.inl (any_append_l h _)
                · exact Or.inr (List.mem_append.mpr (Or.inl h))
              · exact Or.inl hanyc)
            (by
              intro c' hc''
              rcases List.mem_append.mp hc'' with hc'' | hc''
              · exact aset_hasKey_mono (h7 c' hc'')
              · rcases List.mem_singleton.mp hc'' with rfl
                exact aset_hasKey _ _ _)
        refine ⟨r1, r2, r3, r4, s.cats ++ [c] |>.drop 0 |> fun _ => ⟨[c] ++ A, ?_⟩⟩
        rw [hA]
        simp
      · -- name-fallback branch
        rw [mergeCatStep_name mids s c hcne hhas hname]
        have hv : s.cats.any
            (fun c' => c'.id = (aget s.nameMap (jsToLower c.name)).getD "") = true := by
          cases haget : aget s.nameMap (jsToLower c.name) with
          | none => rw [haget] at hname; simp at hname
          | some v =>
            have := h5 _ (aget_mem haget)
            simpa using this
        refine ih (done ++ [c.id]) _ (fun x hx => hcl x (List.mem_cons_of_mem _ hx))
          hdnd' h1 h2 h3 ?_ h5 ?_ ?_
        · intro kv hkv
          rcases aset_mem hkv with hkv | rfl
          · exact h4 kv hkv
          · exact hv
        · intro kv hkv
          rcases aset_mem hkv with hkv | rfl
          · rcases h6 kv hkv with h | h
            · exact Or.inl h
            · exact Or.inr (List.mem_append.mpr (Or.inl h))
          · exact Or.inr (List.mem_append.mpr (Or.inr (List.mem_singleton.mpr rfl)))
        · intro c' hc'
          exact aset_hasKey_mono (h7 c' hc')

/-! ## The merge engine's prompt phase -/

theorem aget_cons {α : Type} (kv : String × α) (m : List (String × α)) (key : String) :
    aget (kv :: m) key = if kv.1 = key then some kv.2 else aget m key := by
  unfold aget
  rw [List.find?_cons]
  by_cases hk : kv.1 = key
  · rw [if_pos hk, show (decide (kv.1 = key)) = true by simp [hk]]
    rfl
  · rw [if_neg hk, show (decide (kv.1 = key)) = false by simp [hk]]

theorem mergePromptStep_eq {idMap : List (String × String)} {mids : Nat → String}
    {s : List (String × Prompt) × Nat} {q : Prompt} (hne : q.id ≠ "") :
    mergePromptStep idMap mids s q =
      (aset s.1 q.id (mergePromptRewrite idMap q.id q), s.2) := by
  unfold mergePromptStep
  rw [if_neg hne, if_neg hne]

theorem cleanPrompt_mergePromptRewrite {incats0 fcats : List Category}
    {idMap : List (String × String)}
    (hUNC : fcats.any (fun c => c.id = UNCATEGORIZED_ID) = true)
    (hMap : ∀ kv ∈ idMap, fcats.any (fun c => c.id = kv.2) = true)
    {q : Prompt} (hq : CleanPrompt incats0 q) :
    CleanPrompt fcats (mergePromptRewrite idMap q.id q) := by
  obtain ⟨h1, h2, h3, h4, h5, _, _, h8, h9, h10⟩ := hq
  refine ⟨h1, h2, h3, h4, h5, ?_, ?_, h8, h9, h10⟩
  · show fcats.any (fun c => c.id = (aget idMap q.categoryId).getD UNCATEGORIZED_ID) = true
    cases haget : aget idMap q.categoryId with
    | none => simpa using hUNC
    | some v =>
      have := hMap _ (aget_mem haget)
      simpa using this
  · exact ⟨fun t ht => mem_normTags ht, nodup_normTags _, sorted_normTags _⟩

theorem mergePromptFoldl_inv {incats0 fcats : List Category}
    {idMap : List (String × String)} {mids : Nat → String}
    (hUNC : fcats.any (fun c => c.id = UNCATEGORIZED_ID) = true)
    (hMap : ∀ kv ∈ idMap, fcats.any (fun c => c.id = kv.2) = true) :
    ∀ (imps : List Prompt) (s : List (String × Prompt) × Nat),
      (∀ p ∈ imps, CleanPrompt incats0 p) →
      (∀ kv ∈ s.1, kv.2.id = kv.1) →
      ((s.1.map (fun kv => kv.1)).Nodup) →
      (∀ kv ∈ s.1, CleanPrompt fcats kv.2) →
      (∀ kv ∈ (imps.foldl (mergePromptStep idMap mids) s).1, kv.2.id = kv.1) ∧
      (((imps.foldl (mergePromptStep idMap mids) s).1.map (fun kv => kv.1)).Nodup) ∧
      (∀ kv ∈ (imps.foldl (mergePromptStep idMap mids) s).1, CleanPrompt fcats kv.2) := by
  intro imps
  induction imps with
  | nil => intro s _ p1 p2 p3; exact ⟨p1, p2, p3⟩
  | cons q rest ih =>
    intro s hcl p1 p2 p3
    have hqClean := hcl q (List.mem_cons_self _ _)
    rw [List.foldl_cons, mergePromptStep_eq hqClean.2.1]
    refine ih _ (fun x hx => hcl x (List.mem_cons_of_mem _ hx)) ?_ ?_ ?_
    · intro kv hkv
      rcases aset_mem hkv with hkv | rfl
      · exact p1 kv hkv
      · rfl
    · exact aset_keys_nodup p2
    · intro kv hkv
      rcases aset_mem hkv with hkv | rfl
      · exact p3 kv hkv
      · exact cleanPrompt_mergePromptRewrite hUNC hMap hqClean

theorem mergePromptFoldl_aget_other {idMap : List (String × String)} {mids : Nat → String} :
    ∀ (imps : List Prompt) (s : List (String × Prompt) × Nat) (key : String),
      (∀ p ∈ imps, p.id ≠ "") → key ∉ imps.map Prompt.id →
      aget ((imps.foldl (mergePromptStep idMap mids) s).1) key = aget s.1 key := by
  intro imps
  induction imps with
  | nil => intro s key _ _; rfl
  | cons q rest ih =>
    intro s key hne hkey
    rw [List.foldl_cons, mergePromptStep_eq (hne q (List.mem_cons_self _ _))]
    have hkq : key ≠ q.id := by
      intro h
      exact hkey (by rw [List.map_cons, h]; exact List.mem_cons_self _ _)
    rw [ih _ key (fun p hp => hne p (List.mem_cons_of_mem _ hp))
      (fun hc => hkey (by rw [List.map_cons]; exact List.mem_cons_of_mem _ hc))]
    exact aget_aset_ne hkq

theorem mergePromptFoldl_aget_found {idMap : List (String × String)} {mids : Nat → String} :
    ∀ (imps : List Prompt) (s : List (String × Prompt) × Nat),
      (∀ p ∈ imps, p.id ≠ "") → (imps.map Prompt.id).Nodup →
      ∀ q ∈ imps, aget ((imps.foldl (mergePromptStep idMap mids) s).1) q.id
        = some (mergePromptRewrite idMap q.id q) := by
  intro imps
  induction imps with
  | nil => intro s _ _ q hq; simp at hq
  | cons x rest ih =>
    intro s hne hnd q hq
    rw [List.foldl_cons, mergePromptStep_eq (hne x (List.mem_cons_self _ _))]
    rcases List.mem_cons.mp hq with rfl | hq
    · have hnotin : q.id ∉ rest.map Prompt.id := by
        rw [List.map_cons, List.nodup_cons] at hnd
        exact hnd.1
      rw [mergePromptFoldl_aget_other rest _ q.id
        (fun p hp => hne p (List.mem_cons_of_mem _ hp)) hnotin]
      exact aget_aset_self _ _ _
    · refine ih _ (fun p hp => hne p (List.mem_cons_of_mem _ hp)) ?_ q hq
      rw [List.map_cons, List.nodup_cons] at hnd
      exact hnd.2

theorem find?_values_eq_aget {m : List (String × Prompt)}
    (h1 : ∀ kv ∈ m, kv.2.id = kv.1) (key : String) :
    (m.map (fun kv => kv.2)).find? (fun r => r.id = key) = aget m key := by
  induction m with
  | nil => rfl
  | cons kv rest ih =>
    rw [List.map_cons, List.find?_cons, aget_cons]
    have hid := h1 kv (List.mem_cons_self _ _)
    by_cases hk : kv.1 = key
    · rw [if_pos hk, show (decide (kv.2.id = key)) = true by simp [hid, hk]]
    · rw [if_neg hk, show (decide (kv.2.id = key)) = false by simp [hid, hk]]
      exact ih (fun x hx => h1 x (List.mem_cons_of_mem _ hx))

theorem values_map_id {m : List (String × Prompt)} (h1 : ∀ kv ∈ m, kv.2.id = kv.1) :
    (m.map (fun kv => kv.2)).map Prompt.id = m.map (fun kv => kv.1) := by
  rw [List.map_map]
  exact List.map_congr_left (fun kv hkv => h1 kv hkv)

/-! ## C7 — the merge replace law -/

/-- The canonical-document facts about `mergeImported`'s pre-normalization
output used by C7 and C8. -/
theorem mergeImported_pre (now : String) (ids mids : Nat → String)
    (current incoming : DbFile) (hcur : CleanDb current) (hinc : CleanDb incoming) :
    let cstate := mergeCats mids current.categories incoming.categories
    let seeded := mapFromPairs (current.prompts.map (fun p => (p.id, p)))
    let final := incoming.prompts.foldl (mergePromptStep cstate.idMap mids)
      (seeded, cstate.counter)
    CleanDb { version := 1, categories := cstate.cats
            , prompts := final.1.map (fun kv => kv.2) } ∧
    (∀ kv ∈ final.1, kv.2.id = kv.1) := by
  obtain ⟨_, hccl, hcnd, hcunc, hcpl, hcpnd⟩ := hcur
  obtain ⟨_, hicl, hind, _, hipl, hipnd⟩ := hinc
  -- category phase
  have hseed4 : ∀ kv ∈ mapFromPairs (current.categories.map (fun c => (c.id, c.id))),
      current.categories.any (fun c => c.id = kv.2) = true := by
    intro kv hkv
    obtain ⟨c, hc, hkv'⟩ := List.mem_map.mp (mapFromPairs_mem hkv)
    exact List.any_eq_true.mpr ⟨c, hc, by simp [← hkv']⟩
  have hseed5 : ∀ kv ∈ mapFromPairs (current.categories.map (fun c => (jsToLower c.name, c.id))),
      current.categories.any (fun c => c.id = kv.2) = true := by
    intro kv hkv
    obtain ⟨c, hc, hkv'⟩ := List.mem_map.mp (mapFromPairs_mem hkv)
    exact List.any_eq_true.mpr ⟨c, hc, by simp [← hkv']⟩
  have hseed6 : ∀ kv ∈ mapFromPairs (current.categories.map (fun c => (c.id, c.id))),
      current.categories.any (fun c => c.id = kv.1) = true ∨ kv.1 ∈ ([] : List String) := by
    intro kv hkv
    obtain ⟨c, hc, hkv'⟩ := List.mem_map.mp (mapFromPairs_mem hkv)
    exact Or.inl (List.any_eq_true.mpr ⟨c, hc, by simp [← hkv']⟩)
  have hseed7 : ∀ c ∈ current.categories,
      (mapFromPairs (current.categories.map (fun c => (c.id, c.id)))).any
        (fun kv => kv.1 = c.id) = true := by
    intro c hc
    exact mapFromPairs_hasKey (List.mem_map.mpr ⟨c, hc, rfl⟩)
  obtain ⟨g1, g2, g3, g4, A, hA⟩ :=
    mergeCatFoldl_inv mids incoming.categories []
      { cats := current.categories
      , idMap := mapFromPairs (current.categories.map (fun c => (c.id, c.id)))
      , nameMap := mapFromPairs (current.categories.map (fun c => (jsToLower c.name, c.id)))
      , counter := 0 }
      hicl (by simpa using hind) hccl hcnd hcunc hseed4 hseed5 hseed6 hseed7
  -- the reserved-id override preserves the value condition
  have g4' : ∀ kv ∈ (mergeCats mids current.categories incoming.categories).idMap,
      (mergeCats mids current.categories incoming.categories).cats.any
        (fun c => c.id = kv.2) = true := by
    intro kv hkv
    unfold mergeCats at hkv ⊢
    rcases aset_mem hkv with hkv | rfl
    · exact g4 kv hkv
    · exact g3
  have hcatsF : (mergeCats mids current.categories incoming.categories).cats
      = current.categories ++ A := hA
  have hFunc : (mergeCats mids current.categories incoming.categories).cats.any
      (fun c => c.id = UNCATEGORIZED_ID) = true := g3
  -- prompt phase seed
  have hkeysSeed : (mapFromPairs (current.prompts.map (fun p => (p.id, p)))) =
      current.prompts.map (fun p => (p.id, p)) := by
    apply mapFromPairs_eq_self
    rw [List.map_map]
    have : ((fun kv => kv.1) ∘ (fun p => (p.id, p))) = Prompt.id := rfl
    rw [this]
    exact hcpnd
  have hs1 : ∀ kv ∈ mapFromPairs (current.prompts.map (fun p => (p.id, p))),
      kv.2.id = kv.1 := by
    intro kv hkv
    obtain ⟨p, _, hkv'⟩ := List.mem_map.mp (mapFromPairs_mem hkv)
    rw [← hkv']
  have hs2 : ((mapFromPairs (current.prompts.map (fun p => (p.id, p)))).map
      (fun kv => kv.1)).Nodup := by
    rw [hkeysSeed, List.map_map]
    have : ((fun kv => kv.1) ∘ (fun p : Prompt => (p.id, p))) = Prompt.id := rfl
    rw [this]
    exact hcpnd
  have hs3 : ∀ kv ∈ mapFromPairs (current.prompts.map (fun p => (p.id, p))),
      CleanPrompt (mergeCats mids current.categories incoming.categories).cats kv.2 := by
    intro kv hkv
    obtain ⟨p, hp, hkv'⟩ := List.mem_map.mp (mapFromPairs_mem hkv)
    have hclean := hcpl p hp
    have : CleanPrompt (current.categories ++ A) p := by
      obtain ⟨a1, a2, a3, a4, a5, a6, a7, a8, a9, a10⟩ := hclean
      exact ⟨a1, a2, a3, a4, a5, any_append_l a6 A, a7, a8, a9, a10⟩
    rw [hcatsF]
    rw [← hkv']
    exact this
  obtain ⟨q1, q2, q3⟩ :=
    @mergePromptFoldl_inv incoming.categories _ _ _ hFunc g4'
      incoming.prompts (mapFromPairs (current.prompts.map (fun p => (p.id, p))),
        (mergeCats mids current.categories incoming.categories).counter)
      hipl hs1 hs2 hs3
  constructor
  · refine ⟨rfl, g1, g2, g3, ?_, ?_⟩
    · intro r hr
      obtain ⟨kv, hkv, rfl⟩ := List.mem_map.mp hr
      exact q3 kv hkv
    · rw [values_map_id q1]
      exact q2
  · exact q1

/-- C7: the merge replace law — for canonical `current` and `incoming`, if
`incoming` contains a prompt with the same id as one in `current`, then the
merged result's prompt with that id is exactly the incoming prompt with its
`categoryId` rewritten through the category resolution map and its tags
re-run through the dedupe-and-sort pipeline — not the original's record. -/
theorem merge_replace_law (now : String) (ids mids : Nat → String)
    (current incoming : DbFile) (hcur : CleanDb current) (hinc : CleanDb incoming)
    (q : Prompt) (hq : q ∈ incoming.prompts)
    (p : Prompt) (hp : p ∈ current.prompts) (hpq : p.id = q.id) :
    (mergeImported now ids mids current incoming).prompts.find? (fun r => r.id = q.id)
      = some (mergePromptRewrite
          (mergeCats mids current.categories incoming.categories).idMap q.id q) := by
  obtain ⟨hpre, hids⟩ := mergeImported_pre now ids mids current incoming hcur hinc
  unfold mergeImported
  rw [normalizeDb_eq_self hpre]
  show ((_ : List (String × Prompt)).map (fun kv => kv.2)).find? _ = _
  rw [find?_values_eq_aget hids]
  obtain ⟨_, _, _, _, hipl, hipnd⟩ := hinc
  exact mergePromptFoldl_aget_found incoming.prompts _
    (fun r hr => (hipl r hr).2.1) hipnd q hq

def c7p : Prompt :=
  { id := "p1", title := "Old", categoryId := "uncategorized", content := "old text"
  , tags := [], favorite := false, createdAt := "t0", updatedAt := "t0", lastUsedAt := none }

def c7q : Prompt :=
  { id := "p1", title := "New", categoryId := "uncategorized", content := "new text"
  , tags := ["a", "b"], favorite := true, createdAt := "t1", updatedAt := "t1"
  , lastUsedAt := none }

def c7cur : DbFile :=
  { version := 1, categories := [uncatDefault "t0"], prompts := [c7p] }

def c7inc : DbFile :=
  { version := 1, categories := [uncatDefault "t0"], prompts := [c7q] }

theorem merge_replace_law_witness :
    CleanDb c7cur ∧ CleanDb c7inc ∧ c7q ∈ c7inc.prompts ∧ c7p ∈ c7cur.prompts ∧
    (mergeImported "t9" wIds wIds c7cur c7inc).prompts.find? (fun r => r.id = c7q.id)
      = some (mergePromptRewrite (mergeCats wIds c7cur.categories c7inc.categories).idMap
          c7q.id c7q) :=
  ⟨by decide, by decide, by decide, by decide,
   merge_replace_law "t9" wIds wIds c7cur c7inc (by decide) (by decide)
     c7q (by decide) c7p (by decide) rfl⟩

/-! ## C8 — the merge category name fallback -/

/-- C8: merge category name fallback — when the incoming document's category
list is the reserved category plus one category `w` whose id is new to the
current document but whose lowercased name hits the current name map at some
id `cid`, merging creates no category, and every incoming prompt that
referenced `w.id` carries `categoryId = cid` in the merged result. -/
theorem merge_category_name_fallback (now : String) (ids mids : Nat → String)
    (current incoming : DbFile) (hcur : CleanDb current) (hinc : CleanDb incoming)
    (u w : Category) (hcats : incoming.categories = [u, w])
    (hu : u.id = UNCATEGORIZED_ID)
    (hnew : current.categories.any (fun c => c.id = w.id) = false)
    (cid : String)
    (hlookup : aget (mapFromPairs (current.categories.map
        (fun c => (jsToLower c.name, c.id)))) (jsToLower w.name) = some cid) :
    (mergeImported now ids mids current incoming).categories = current.categories ∧
    ∀ q ∈ incoming.prompts, q.categoryId = w.id →
      ∃ r, (mergeImported now ids mids current incoming).prompts.find?
          (fun x => x.id = q.id) = some r ∧ r.categoryId = cid := by
  obtain ⟨hpre, hids⟩ := mergeImported_pre now ids mids current incoming hcur hinc
  obtain ⟨_, hccl, _, hcunc, _, _⟩ := hcur
  obtain ⟨_, hicl, _, _, hipl, hipnd⟩ := hinc
  have hwmem : w ∈ incoming.categories := by rw [hcats]; exact List.mem_cons_of_mem _ (List.mem_cons_self _ _)
  have hu_ne : u.id ≠ "" := by rw [hu]; decide
  have hw_ne : w.id ≠ "" := (hicl w hwmem).2.1
  have hcid_ne : cid ≠ "" := by
    obtain ⟨c, hc, hceq⟩ := List.mem_map.mp (mapFromPairs_mem (aget_mem hlookup))
    have : c.id = cid := congrArg Prod.snd hceq
    rw [← this]
    exact ((hccl c hc).2.1)
  have hwUNC : w.id ≠ UNCATEGORIZED_ID := by
    intro hWU
    obtain ⟨c, hc, hcid⟩ := List.any_eq_true.mp hcunc
    have hcid' : c.id = UNCATEGORIZED_ID := by simpa using hcid
    have hbad : current.categories.any (fun x => x.id = w.id) = true :=
      List.any_eq_true.mpr ⟨c, hc, by simp [hcid', hWU]⟩
    rw [hnew] at hbad
    exact Bool.false_ne_true hbad
  have hhas0 : (mapFromPairs (current.categories.map (fun c => (c.id, c.id)))).any
      (fun kv => kv.1 = u.id) = true := by
    obtain ⟨c, hc, hcid⟩ := List.any_eq_true.mp hcunc
    have hcid' : c.id = UNCATEGORIZED_ID := by simpa using hcid
    have hk := mapFromPairs_hasKey
      (show (c.id, c.id) ∈ current.categories.map (fun c => (c.id, c.id)) from
        List.mem_map.mpr ⟨c, hc, rfl⟩)
    rw [hcid', ← hu] at hk
    exact hk
  have hhas1 : (aset (mapFromPairs (current.categories.map (fun c => (c.id, c.id))))
      u.id u.id).any (fun kv => kv.1 = w.id) = false := by
    cases hA : (aset (mapFromPairs (current.categories.map (fun c => (c.id, c.id))))
        u.id u.id).any (fun kv => kv.1 = w.id) with
    | false => rfl
    | true =>
      exfalso
      obtain ⟨kv, hkv, hk⟩ := List.any_eq_true.mp hA
      have hk' : kv.1 = w.id := by simpa using hk
      rcases aset_mem hkv with hm | rfl
      · obtain ⟨c, hc, hceq⟩ := List.mem_map.mp (mapFromPairs_mem hm)
        have hcw : c.id = w.id := by rw [← hceq] at hk'; simpa using hk'
        have hbad : current.categories.any (fun x => x.id = w.id) = true :=
          List.any_eq_true.mpr ⟨c, hc, by simp [hcw]⟩
        rw [hnew] at hbad
        exact Bool.false_ne_true hbad
      · have huw : u.id = w.id := by simpa using hk'
        rw [hu] at huw
        exact hwUNC huw.symm
  have hname : (aget (mapFromPairs (current.categories.map
      (fun c => (jsToLower c.name, c.id)))) (jsToLower w.name)).getD "" ≠ "" := by
    rw [hlookup]
    exact hcid_ne
  have hstep1 : mergeCatStep mids
      ⟨current.categories,
       mapFromPairs (current.categories.map (fun c => (c.id, c.id))),
       mapFromPairs (current.categories.map (fun c => (jsToLower c.name, c.id))), 0⟩ u
      = ⟨current.categories,
         aset (mapFromPairs (current.categories.map (fun c => (c.id, c.id)))) u.id u.id,
         mapFromPairs (current.categories.map (fun c => (jsToLower c.name, c.id))), 0⟩ :=
    mergeCatStep_has mids
      ⟨current.categories,
       mapFromPairs (current.categories.map (fun c => (c.id, c.id))),
       mapFromPairs (current.categories.map (fun c => (jsToLower c.name, c.id))), 0⟩
      u hu_ne hhas0
  have hstep2 : mergeCatStep mids
      ⟨current.categories,
       aset (mapFromPairs (current.categories.map (fun c => (c.id, c.id)))) u.id u.id,
       mapFromPairs (current.categories.map (fun c => (jsToLower c.name, c.id))), 0⟩ w
      = ⟨current.categories,
         aset (aset (mapFromPairs (current.categories.map (fun c => (c.id, c.id))))
           u.id u.id) w.id cid,
         mapFromPairs (current.categories.map (fun c => (jsToLower c.name, c.id))), 0⟩ := by
    rw [mergeCatStep_name mids
      ⟨current.categories,
       aset (mapFromPairs (current.categories.map (fun c => (c.id, c.id)))) u.id u.id,
       mapFromPairs (current.categories.map (fun c => (jsToLower c.name, c.id))), 0⟩
      w hw_ne hhas1 hname]
    rw [hlookup]
    rfl
  have hfold : mergeCats mids current.categories incoming.categories
      = ⟨current.categories,
         aset (aset (aset (mapFromPairs (current.categories.map (fun c => (c.id, c.id))))
           u.id u.id) w.id cid) UNCATEGORIZED_ID UNCATEGORIZED_ID,
         mapFromPairs (current.categories.map (fun c => (jsToLower c.name, c.id))), 0⟩ := by
    unfold mergeCats
    rw [hcats]
    rw [List.foldl_cons, hstep1, List.foldl_cons, hstep2, List.foldl_nil]
  constructor
  · unfold mergeImported
    rw [normalizeDb_eq_self hpre]
    show (mergeCats mids current.categories incoming.categories).cats = current.categories
    rw [hfold]
  · intro q hq hqcat
    unfold mergeImported
    rw [normalizeDb_eq_self hpre]
    refine ⟨mergePromptRewrite (mergeCats mids current.categories incoming.categories).idMap
      q.id q, ?_, ?_⟩
    · show ((_ : List (String × Prompt)).map (fun kv => kv.2)).find? _ = _
      rw [find?_values_eq_aget hids]
      exact mergePromptFoldl_aget_found incoming.prompts _
        (fun r hr => (hipl r hr).2.1) hipnd q hq
    · show (aget (mergeCats mids current.categories incoming.categories).idMap
        q.categoryId).getD UNCATEGORIZED_ID = cid
      rw [hqcat, hfold]
      show (aget (aset (aset (aset (mapFromPairs (current.categories.map
          (fun c => (c.id, c.id)))) u.id u.id) w.id cid)
          UNCATEGORIZED_ID UNCATEGORIZED_ID) w.id).getD UNCATEGORIZED_ID = cid
      rw [aget_aset_ne hwUNC, aget_aset_self]
      rfl

def c8u : Category := { id := "uncategorized", name := "Bez kategorii", createdAt := "t0" }

def c8w : Category := { id := "w9", name := "work", createdAt := "t0" }

def c8q : Prompt :=
  { id := "q1", title := "T", categoryId := "w9", content := "C"
  , tags := [], favorite := false, createdAt := "t1", updatedAt := "t1", lastUsedAt := none }

def c8cur : DbFile :=
  { version := 1
  , categories := [c8u, { id := "c1", name := "Work", createdAt := "t0" }]
  , prompts := [] }

def c8inc : DbFile := { version := 1, categories := [c8u, c8w], prompts := [c8q] }

theorem merge_category_name_fallback_witness :
    CleanDb c8cur ∧ CleanDb c8inc ∧ c8q ∈ c8inc.prompts ∧
    (mergeImported "t9" wIds wIds c8cur c8inc).categories = c8cur.categories ∧
    ∃ r, (mergeImported "t9" wIds wIds c8cur c8inc).prompts.find?
        (fun x => x.id = c8q.id) = some r ∧ r.categoryId = "c1" := by
  have h := merge_category_name_fallback "t9" wIds wIds c8cur c8inc (by decide) (by decide)
    c8u c8w rfl rfl (by decide) "c1" (by decide)
  exact ⟨by decide, by decide, by decide, h.1, h.2 c8q (by decide) rfl⟩

end Prompter
